import Mathlib

/-!
Verification of the structural diff engine of the webdiff repository
(`DiffEngine` in `js/utils.js`, path parsing from `DiffNavigation.getPathParts`).

The embedding is shallow: JSON-shaped values become the inductive `Json`
(numbers are modelled as integers; the claims under scrutiny only use exact
equality of primitives, never float arithmetic), the accumulator-passing JS
functions become pure functions returning a `Changes` record whose four lists
are accumulated in traversal order, and JS string building (`path.key`,
`path[i]`) becomes `String` append with decimal rendering of indices.
-/

set_option maxHeartbeats 1000000

/-- A JSON primitive: string, number (modelled as an integer) or boolean. -/
inductive Prim where
  | str (s : String)
  | int (n : Int)
  | bool (b : Bool)
deriving DecidableEq

/-- A JSON-shaped value. Objects keep their fields as an ordered association
list, mirroring JS insertion-ordered own keys. -/
inductive Json where
  | null
  | prim (p : Prim)
  | arr (elems : List Json)
  | obj (fields : List (String × Json))

namespace DiffEngine

/-- The JS test `value === null` (the engine never sees `undefined` on
JSON-shaped input, so a single null constructor suffices). -/
def isNull : Json → Bool
  | .null => true
  | _ => false

/-- `DiffEngine.getType`: the four-way structural kind tag. -/
def getType : Json → String
  | .null => "null"
  | .arr _ => "array"
  | .obj _ => "object"
  | .prim _ => "primitive"

/-- A change record carrying a single value (`added`/`removed`/`unchanged`
entries): `{ path, value, type }`. -/
structure ChangeRec where
  path : String
  value : Json
  type : String

/-- A `modified` record. The JS code pushes two shapes of object:
`{path, oldValue, newValue, oldType, newType}` on a kind mismatch and
`{path, oldValue, newValue, type}` on a primitive value change. -/
inductive ModRec where
  | typeChange (path : String) (oldValue newValue : Json) (oldType newType : String)
  | valueChange (path : String) (oldValue newValue : Json) (type : String)

def ModRec.path : ModRec → String
  | .typeChange p _ _ _ _ => p
  | .valueChange p _ _ _ => p

def ModRec.oldValue : ModRec → Json
  | .typeChange _ ov _ _ _ => ov
  | .valueChange _ ov _ _ => ov

def ModRec.newValue : ModRec → Json
  | .typeChange _ _ nv _ _ => nv
  | .valueChange _ _ nv _ => nv

/-- The classification result: the `changes` accumulator of
`DiffEngine.compare`, with its four sequences. -/
structure Changes where
  added : List ChangeRec
  removed : List ChangeRec
  modified : List ModRec
  unchanged : List ChangeRec

/-- Sequential accumulation: the records a first traversal phase pushed,
followed by those of a second phase. -/
def Changes.append (a b : Changes) : Changes :=
  ⟨a.added ++ b.added, a.removed ++ b.removed,
   a.modified ++ b.modified, a.unchanged ++ b.unchanged⟩

def Changes.nil : Changes := ⟨[], [], [], []⟩

/-- Child path for an object key: `path ? path + "." + key : key`. -/
def childPath (path key : String) : String :=
  if path = "" then key else path ++ "." ++ key

/-- Decimal digit characters of a natural number, most significant first
(the rendering of a JS array index inside a template literal). -/
def natDecimal (n : Nat) : List Char :=
  if h : n < 10 then [Char.ofNat (48 + n)]
  else natDecimal (n / 10) ++ [Char.ofNat (48 + n % 10)]
decreasing_by exact Nat.div_lt_self (by omega) (by omega)

/-- Child path for an array index: `path + "[" + i + "]"`. -/
def idxPath (path : String) (i : Nat) : String :=
  path ++ "[" ++ ⟨natDecimal i⟩ ++ "]"

/-- First binding for a key in an association list (JS property access;
object keys are unique in JS, so first-match is exact). -/
def lookupJ (k : String) : List (String × Json) → Option Json
  | [] => none
  | (k', v) :: fs => if k' = k then some v else lookupJ k fs

/-- Insertion-ordered deduplication: the iteration order of
`new Set([...oldKeys, ...newKeys])` keeps the first occurrence of each key. -/
def dedupFirst : List String → List String
  | [] => []
  | k :: ks => k :: dedupFirst (ks.filter (fun k' => k' ≠ k))
termination_by ks => ks.length
decreasing_by
  simp only [List.length_cons]
  exact Nat.lt_succ_of_le (List.length_filter_le _ _)

theorem lookupJ_sizeOf {k : String} {fs : List (String × Json)} {v : Json}
    (h : lookupJ k fs = some v) : sizeOf v < sizeOf fs := by
  induction fs with
  | nil => simp [lookupJ] at h
  | cons f fs ih =>
    obtain ⟨k', v'⟩ := f
    simp only [lookupJ] at h
    split at h
    · cases h
      simp
      omega
    · have := ih h
      simp
      omega

mutual

/-- `DiffEngine.deepCompare`: classify `oldVal` against `newVal` at `path`,
returning the records pushed, in push order. -/
def deepCompare (oldVal newVal : Json) (path : String) : Changes :=
  if isNull oldVal && isNull newVal then
    ⟨[], [], [], [⟨path, Json.null, "null"⟩]⟩
  else if isNull oldVal then
    ⟨[⟨path, newVal, getType newVal⟩], [], [], []⟩
  else if isNull newVal then
    ⟨[], [⟨path, oldVal, getType oldVal⟩], [], []⟩
  else if getType oldVal ≠ getType newVal then
    ⟨[], [], [.typeChange path oldVal newVal (getType oldVal) (getType newVal)], []⟩
  else
    match oldVal, newVal with
    | .obj oldFs, .obj newFs =>
        compareObjectsGo oldFs newFs path
          (dedupFirst (oldFs.map Prod.fst ++ newFs.map Prod.fst))
    | .arr oldArr, .arr newArr => compareArraysGo oldArr newArr path 0
    | .prim a, .prim b =>
        if a ≠ b then
          ⟨[], [], [.valueChange path (.prim a) (.prim b) "primitive"], []⟩
        else
          ⟨[], [], [], [⟨path, .prim a, "primitive"⟩]⟩
    | _, _ => Changes.nil
termination_by (sizeOf oldVal + sizeOf newVal, 0)
decreasing_by
  · apply Prod.Lex.left
    simp
    omega
  · apply Prod.Lex.left
    simp
    omega

/-- One iteration of the `allKeys.forEach` loop of
`DiffEngine.compareObjects` for the key `k`. -/
def objStep (oldFs newFs : List (String × Json)) (path k : String) : Changes :=
  match hO : lookupJ k oldFs, hN : lookupJ k newFs with
  | some ov, some nv => deepCompare ov nv (childPath path k)
  | some ov, none => ⟨[], [⟨childPath path k, ov, getType ov⟩], [], []⟩
  | none, some nv => ⟨[⟨childPath path k, nv, getType nv⟩], [], [], []⟩
  | none, none => Changes.nil
termination_by (sizeOf oldFs + sizeOf newFs, 1)
decreasing_by
  apply Prod.Lex.left
  have h1 := lookupJ_sizeOf hO
  have h2 := lookupJ_sizeOf hN
  omega

/-- `DiffEngine.compareObjects`: the `allKeys.forEach` loop, with the still
unvisited keys made explicit. -/
def compareObjectsGo (oldFs newFs : List (String × Json)) (path : String) :
    List String → Changes
  | [] => Changes.nil
  | k :: ks =>
      Changes.append (objStep oldFs newFs path k)
        (compareObjectsGo oldFs newFs path ks)
termination_by ks => (sizeOf oldFs + sizeOf newFs, 2 + ks.length)
decreasing_by
  · apply Prod.Lex.right
    omega
  · apply Prod.Lex.right
    simp only [List.length_cons]
    omega

/-- `DiffEngine.compareArrays`: the index loop `for i in 0..max(len,len)`,
with the elements still to visit and the next index made explicit. -/
def compareArraysGo (oldArr newArr : List Json) (path : String) (i : Nat) :
    Changes :=
  match oldArr, newArr with
  | [], [] => Changes.nil
  | o :: os, n :: ns =>
      Changes.append (deepCompare o n (idxPath path i))
        (compareArraysGo os ns path (i + 1))
  | o :: os, [] =>
      Changes.append ⟨[], [⟨idxPath path i, o, getType o⟩], [], []⟩
        (compareArraysGo os [] path (i + 1))
  | [], n :: ns =>
      Changes.append ⟨[⟨idxPath path i, n, getType n⟩], [], [], []⟩
        (compareArraysGo [] ns path (i + 1))
termination_by (sizeOf oldArr + sizeOf newArr, 0)
decreasing_by
  all_goals (apply Prod.Lex.left; simp; try omega)

end

/-- `DiffEngine.compare`: the public entry point, starting at the root
path `""`. -/
def compare (oldObj newObj : Json) : Changes :=
  deepCompare oldObj newObj ""

/-- `DiffEngine.calculateChangePercentage`. The JS arithmetic
`Math.round((changed / total) * 100)` is modelled over the rationals;
`Math.round` rounds half toward positive infinity, as `round` on `ℚ` does. -/
def calculateChangePercentage (changes : Changes) : Int :=
  let total := changes.added.length + changes.removed.length +
    changes.modified.length + changes.unchanged.length
  if total = 0 then 0
  else
    let changed := changes.added.length + changes.removed.length + changes.modified.length
    round (((changed : ℚ) / (total : ℚ)) * 100)

/-- The statistics object returned by `DiffEngine.calculateStats`. -/
structure Stats where
  totalChanges : Nat
  added : Nat
  removed : Nat
  modified : Nat
  unchanged : Nat
  changePercentage : Int

/-- `DiffEngine.calculateStats`. -/
def calculateStats (changes : Changes) : Stats :=
  ⟨changes.added.length + changes.removed.length + changes.modified.length,
   changes.added.length, changes.removed.length, changes.modified.length,
   changes.unchanged.length, calculateChangePercentage changes⟩

/-- JSON string escaping of one character, as `JSON.stringify` performs on
string payloads (quote, backslash and the common control characters; other
characters pass through unchanged). -/
def escapeJSONChar (c : Char) : String :=
  if c = '"' then "\\\""
  else if c = '\\' then "\\\\"
  else if c = '\n' then "\\n"
  else if c = '\t' then "\\t"
  else if c = '\r' then "\\r"
  else String.singleton c

/-- A JSON string literal for `s`, as `JSON.stringify` renders strings. -/
def quoteJSON (s : String) : String :=
  "\"" ++ String.join (s.toList.map escapeJSONChar) ++ "\""

mutual

/-- `JSON.stringify` on the embedded values (compact form, no spacing —
the form the JS engine produces for the arguments the code passes it). -/
def jsonStringify : Json → String
  | .null => "null"
  | .prim (.str s) => quoteJSON s
  | .prim (.int n) => n.repr
  | .prim (.bool b) => if b then "true" else "false"
  | .arr xs => "[" ++ String.intercalate "," (stringifyList xs) ++ "]"
  | .obj fs => "\x7b" ++ String.intercalate "," (stringifyFields fs) ++ "\x7d"
termination_by j => sizeOf j

def stringifyList : List Json → List String
  | [] => []
  | x :: xs => jsonStringify x :: stringifyList xs
termination_by xs => sizeOf xs

def stringifyFields : List (String × Json) → List String
  | [] => []
  | (k, v) :: fs => (quoteJSON k ++ ":" ++ jsonStringify v) :: stringifyFields fs
termination_by fs => sizeOf fs

end

/-- `String(value)` applied to a JS primitive. -/
def primToString : Prim → String
  | .str s => s
  | .int n => n.repr
  | .bool b => if b then "true" else "false"

/-- Truncation used by `formatValue`: `str.length > maxLength` keeps the
first `maxLength` characters and appends `"..."`. -/
def truncateTo (s : String) (maxLength : Nat) : String :=
  if maxLength < s.length then s.take maxLength ++ "..." else s

/-- `DiffEngine.formatValue` (the JS default `maxLength = 100` is passed
explicitly at every call site modelled here). -/
def formatValue (value : Json) (maxLength : Nat) : String :=
  match value with
  | .null => "null"
  | .obj _ => truncateTo (jsonStringify value) maxLength
  | .arr _ => truncateTo (jsonStringify value) maxLength
  | .prim p => truncateTo (primToString p) maxLength

/-- A transformation descriptor, as pushed by
`DiffEngine.generateJSONataQueries`: the three kinds of query objects carry
different value fields, modelled with `Option`. -/
structure Query where
  type : String
  path : String
  query : String
  description : String
  value : Option Json
  oldValue : Option Json
  newValue : Option Json

/-- `DiffEngine.generateJSONataQueries`: one descriptor per added record,
then one per removed record, then one per modified record, in input order. -/
def generateJSONataQueries (changes : Changes) : List Query :=
  changes.added.map (fun change =>
    ⟨"addition", change.path,
     "$ ~> | $ | \x7b \"" ++ change.path ++ "\": " ++ jsonStringify change.value ++ " \x7d |",
     "Add field " ++ change.path, some change.value, none, none⟩)
  ++ changes.removed.map (fun change =>
    ⟨"deletion", change.path,
     "$ ~> | $ | \x7b \"" ++ change.path ++ "\": undefined \x7d |",
     "Remove field " ++ change.path, none, some change.value, none⟩)
  ++ changes.modified.map (fun change =>
    ⟨"modification", change.path,
     "$ ~> | $ | \x7b \"" ++ change.path ++ "\": " ++ jsonStringify change.newValue ++ " \x7d |",
     "Change " ++ change.path ++ " from " ++ formatValue change.oldValue 50 ++
       " to " ++ formatValue change.newValue 50,
     none, some change.oldValue, some change.newValue⟩)

end DiffEngine

namespace DiffNavigation

/-- `path.split('.')` on the underlying characters: JS `split` with a
one-character separator; `"".split('.')` is `[""]`. -/
def splitDot : List Char → List (List Char)
  | [] => [[]]
  | c :: cs =>
      match splitDot cs with
      | s :: ss => if c = '.' then [] :: s :: ss else (c :: s) :: ss
      | [] => if c = '.' then [[], []] else [[c]]

/-- Try to match the regex `\[\d+\]` at the start of the character list;
on success return the characters after the match. -/
def matchIdxAt : List Char → Option (List Char)
  | '[' :: rest =>
      let ds := rest.takeWhile Char.isDigit
      if ds = [] then none
      else
        match rest.drop ds.length with
        | ']' :: tail => some tail
        | _ => none
  | _ => none

/-- `part.replace(/\[\d+\]/, '')`: delete the leftmost match of `\[\d+\]`,
if any. -/
def stripFirstIdx : List Char → List Char
  | [] => []
  | c :: cs =>
      match matchIdxAt (c :: cs) with
      | some tail => tail
      | none => c :: stripFirstIdx cs

/-- `DiffNavigation.getPathParts`: split on `.` and delete the first
array-index marker of every part. -/
def getPathParts (path : String) : List String :=
  (splitDot path.data).map (fun part => ⟨stripFirstIdx part⟩)

end DiffNavigation

/-- A path segment: an object key or an array index (§4.2 of the spec). -/
inductive Seg where
  | key (k : String)
  | idx (i : Nat)

/-- Appending one segment to a path, exactly as the comparator builds child
paths (`path ? path + "." + key : key` and `path + "[" + i + "]"`). -/
def appendSeg (path : String) : Seg → String
  | .key k => DiffEngine.childPath path k
  | .idx i => DiffEngine.idxPath path i

/-- `format` of the Path Model: the path the comparator would address a
node reached from the root by the given segments. -/
def formatPath (segs : List Seg) : String :=
  segs.foldl appendSeg ""

/-- No duplicate keys in a key list (JS objects cannot carry two own
properties with the same name, so embedded inputs are assumed well-formed
in this sense where a claim needs it). -/
def nodupKeysB : List String → Bool
  | [] => true
  | k :: ks => !ks.contains k && nodupKeysB ks

mutual

/-- Well-formedness of an embedded value: every object in the tree has
pairwise distinct keys, as a JS object always does. -/
def wfKeys : Json → Bool
  | .null => true
  | .prim _ => true
  | .arr xs => wfKeysList xs
  | .obj fs => nodupKeysB (fs.map Prod.fst) && wfKeysFields fs
termination_by j => sizeOf j

def wfKeysList : List Json → Bool
  | [] => true
  | x :: xs => wfKeys x && wfKeysList xs
termination_by xs => sizeOf xs

def wfKeysFields : List (String × Json) → Bool
  | [] => true
  | (_, v) :: fs => wfKeys v && wfKeysFields fs
termination_by fs => sizeOf fs

end

mutual

/-- Every object key in the tree satisfies the predicate `good`. -/
def keysOK (good : String → Bool) : Json → Bool
  | .null => true
  | .prim _ => true
  | .arr xs => keysOKList good xs
  | .obj fs => keysOKFields good fs
termination_by j => sizeOf j

def keysOKList (good : String → Bool) : List Json → Bool
  | [] => true
  | x :: xs => keysOK good x && keysOKList good xs
termination_by xs => sizeOf xs

def keysOKFields (good : String → Bool) : List (String × Json) → Bool
  | [] => true
  | (k, v) :: fs => good k && keysOK good v && keysOKFields good fs
termination_by fs => sizeOf fs

end

/-- A key containing none of the path metacharacters `.`, `[`, `]`. -/
def cleanKey (k : String) : Bool :=
  !k.data.contains '.' && !k.data.contains '[' && !k.data.contains ']'

mutual

/-- The leaf records of a tree (§8 reflexivity): one record per primitive
or null leaf, addressed by the comparator's path scheme; empty objects and
arrays contribute no leaf. -/
def leafRecords (j : Json) (path : String) : List DiffEngine.ChangeRec
  := match j with
  | .null => [⟨path, Json.null, "null"⟩]
  | .prim p => [⟨path, Json.prim p, "primitive"⟩]
  | .arr xs => leafRecordsList xs path 0
  | .obj fs => leafRecordsFields fs path
termination_by sizeOf j

def leafRecordsList (xs : List Json) (path : String) (i : Nat) :
    List DiffEngine.ChangeRec :=
  match xs with
  | [] => []
  | x :: rest => leafRecords x (DiffEngine.idxPath path i) ++ leafRecordsList rest path (i + 1)
termination_by sizeOf xs

def leafRecordsFields (fs : List (String × Json)) (path : String) :
    List DiffEngine.ChangeRec :=
  match fs with
  | [] => []
  | (k, v) :: rest =>
      leafRecords v (DiffEngine.childPath path k) ++ leafRecordsFields rest path
termination_by sizeOf fs

end

/-- All path strings of a classification result, across the four
sequences. -/
def DiffEngine.Changes.allPaths (c : DiffEngine.Changes) : List String :=
  c.added.map DiffEngine.ChangeRec.path ++ c.removed.map DiffEngine.ChangeRec.path ++
  c.modified.map DiffEngine.ModRec.path ++ c.unchanged.map DiffEngine.ChangeRec.path

namespace DiffEngine

theorem compare_eq_deepCompare (o n : Json) : compare o n = deepCompare o n "" := rfl

end DiffEngine

/-- C5: for every classification result `r`, `statistics(r).totalChanges`
equals `len(r.added) + len(r.removed) + len(r.modified)`; unchanged records
are not counted. -/
theorem statistics_identity_totalChanges (c : DiffEngine.Changes) :
    (DiffEngine.calculateStats c).totalChanges =
      c.added.length + c.removed.length + c.modified.length := rfl

/-- C9: `transformationDescriptors` emits exactly one descriptor per
non-unchanged record — additions, then deletions, then modifications, each
block in input order, with paths preserved — unchanged records contribute
nothing, and the descriptor count equals `totalChanges`. -/
theorem transformation_descriptor_projection (c : DiffEngine.Changes) :
    (DiffEngine.generateJSONataQueries c).length = (DiffEngine.calculateStats c).totalChanges ∧
    (DiffEngine.generateJSONataQueries c).map DiffEngine.Query.type =
      List.replicate c.added.length "addition" ++
      List.replicate c.removed.length "deletion" ++
      List.replicate c.modified.length "modification" ∧
    (DiffEngine.generateJSONataQueries c).map DiffEngine.Query.path =
      c.added.map DiffEngine.ChangeRec.path ++ c.removed.map DiffEngine.ChangeRec.path ++
      c.modified.map DiffEngine.ModRec.path ∧
    (∀ u : List DiffEngine.ChangeRec,
      DiffEngine.generateJSONataQueries ⟨c.added, c.removed, c.modified, u⟩ =
        DiffEngine.generateJSONataQueries c) := by
  refine ⟨?_, ?_, ?_, ?_⟩
  · simp [DiffEngine.generateJSONataQueries, DiffEngine.calculateStats]
    omega
  · simp [DiffEngine.generateJSONataQueries, List.map_append, List.map_map, Function.comp_def,
      List.map_const']
  · simp [DiffEngine.generateJSONataQueries, List.map_append, List.map_map, Function.comp_def]
  · intro u
    rfl

/-- C2: when both sides are non-null and their kinds differ, the comparator
emits exactly one `modified` record carrying both kinds and does not recurse;
in particular `compare({a:{x:1}}, {a:[1]})` yields the single record at `"a"`
with `oldType = "object"`, `newType = "array"` and no record below it. -/
theorem type_change_short_circuit :
    (∀ (o n : Json) (p : String), DiffEngine.isNull o = false → DiffEngine.isNull n = false →
      DiffEngine.getType o ≠ DiffEngine.getType n →
      DiffEngine.deepCompare o n p =
        ⟨[], [], [.typeChange p o n (DiffEngine.getType o) (DiffEngine.getType n)], []⟩) ∧
    DiffEngine.compare (.obj [("a", .obj [("x", .prim (.int 1))])])
        (.obj [("a", .arr [.prim (.int 1)])]) =
      ⟨[], [],
       [.typeChange "a" (.obj [("x", .prim (.int 1))]) (.arr [.prim (.int 1)]) "object" "array"],
       []⟩ := by
  constructor
  · intro o n p h1 h2 h3
    rw [DiffEngine.deepCompare]
    simp [h1, h2, h3]
    all_goals (intro a b ha hb; subst ha; subst hb; exact h3 rfl)
  · simp [DiffEngine.compare_eq_deepCompare, DiffEngine.deepCompare, DiffEngine.objStep,
      DiffEngine.compareObjectsGo, DiffEngine.compareArraysGo, DiffEngine.dedupFirst,
      DiffEngine.lookupJ, DiffEngine.childPath, DiffEngine.idxPath, DiffEngine.natDecimal,
      DiffEngine.getType, DiffEngine.isNull, DiffEngine.Changes.append, DiffEngine.Changes.nil]

/-- Witness for C2: a primitive against an array is reported as one
kind-mismatch record. -/
theorem type_change_short_circuit_witness :
    DiffEngine.deepCompare (.prim (.int 1)) (.arr []) "q" =
      ⟨[], [], [.typeChange "q" (.prim (.int 1)) (.arr []) "primitive" "array"], []⟩ :=
  type_change_short_circuit.1 (.prim (.int 1)) (.arr []) "q" rfl rfl (by decide)

/-- Fold a list of phase results into one accumulated result. -/
def joinChanges (l : List DiffEngine.Changes) : DiffEngine.Changes :=
  l.foldr DiffEngine.Changes.append DiffEngine.Changes.nil

theorem joinChanges_nil : joinChanges [] = DiffEngine.Changes.nil := rfl

theorem joinChanges_cons (c : DiffEngine.Changes) (l : List DiffEngine.Changes) :
    joinChanges (c :: l) = DiffEngine.Changes.append c (joinChanges l) := rfl

theorem compareObjectsGo_eq_join (oldFs newFs : List (String × Json)) (p : String)
    (ks : List String) :
    DiffEngine.compareObjectsGo oldFs newFs p ks =
      joinChanges (ks.map (DiffEngine.objStep oldFs newFs p)) := by
  induction ks with
  | nil => rw [DiffEngine.compareObjectsGo]; rfl
  | cons k ks ih =>
    rw [DiffEngine.compareObjectsGo, List.map_cons, joinChanges_cons, ih]

/-- What one loop iteration of `compareArrays` contributes for the index
`i`, phrased by element presence as §4.1 step 5 describes it. -/
def arrayStep (oldArr newArr : List Json) (path : String) (i : Nat) :
    DiffEngine.Changes :=
  match oldArr[i]?, newArr[i]? with
  | some o, some n => DiffEngine.deepCompare o n (DiffEngine.idxPath path i)
  | some o, none => ⟨[], [⟨DiffEngine.idxPath path i, o, DiffEngine.getType o⟩], [], []⟩
  | none, some n => ⟨[⟨DiffEngine.idxPath path i, n, DiffEngine.getType n⟩], [], [], []⟩
  | none, none => DiffEngine.Changes.nil

/-- A shifted variant used to state the loop characterization: the loop
body at list position `i`, addressed at index `j + i`. -/
def arrayStepFrom (oldArr newArr : List Json) (path : String) (j i : Nat) :
    DiffEngine.Changes :=
  match oldArr[i]?, newArr[i]? with
  | some o, some n => DiffEngine.deepCompare o n (DiffEngine.idxPath path (j + i))
  | some o, none => ⟨[], [⟨DiffEngine.idxPath path (j + i), o, DiffEngine.getType o⟩], [], []⟩
  | none, some n => ⟨[⟨DiffEngine.idxPath path (j + i), n, DiffEngine.getType n⟩], [], [], []⟩
  | none, none => DiffEngine.Changes.nil

theorem arrayStepFrom_zero (oldArr newArr : List Json) (path : String) (i : Nat) :
    arrayStepFrom oldArr newArr path 0 i = arrayStep oldArr newArr path i := by
  unfold arrayStepFrom arrayStep
  simp

theorem arrayStepFrom_cons_succ (o n : Json) (os ns : List Json) (path : String) (j i : Nat) :
    arrayStepFrom (o :: os) (n :: ns) path j (i + 1) = arrayStepFrom os ns path (j + 1) i := by
  unfold arrayStepFrom
  simp only [List.getElem?_cons_succ]
  have : j + (i + 1) = j + 1 + i := by omega
  rw [this]

theorem arrayStepFrom_left_cons_succ (o : Json) (os : List Json) (path : String) (j i : Nat) :
    arrayStepFrom (o :: os) [] path j (i + 1) = arrayStepFrom os [] path (j + 1) i := by
  unfold arrayStepFrom
  simp only [List.getElem?_cons_succ, List.getElem?_nil]
  have : j + (i + 1) = j + 1 + i := by omega
  rw [this]

theorem arrayStepFrom_right_cons_succ (n : Json) (ns : List Json) (path : String) (j i : Nat) :
    arrayStepFrom [] (n :: ns) path j (i + 1) = arrayStepFrom [] ns path (j + 1) i := by
  unfold arrayStepFrom
  simp only [List.getElem?_cons_succ, List.getElem?_nil]
  have : j + (i + 1) = j + 1 + i := by omega
  rw [this]

theorem compareArraysGo_spec (os : List Json) :
    ∀ (ns : List Json) (p : String) (j : Nat),
    DiffEngine.compareArraysGo os ns p j =
      joinChanges ((List.range (max os.length ns.length)).map (arrayStepFrom os ns p j)) := by
  induction os with
  | nil =>
    intro ns
    induction ns with
    | nil => intro p j; rw [DiffEngine.compareArraysGo]; rfl
    | cons n ns ihn =>
      intro p j
      rw [DiffEngine.compareArraysGo]
      simp only [List.length_nil, List.length_cons, Nat.max_eq_right (Nat.zero_le _),
        List.range_succ_eq_map, List.map_cons, joinChanges_cons, List.map_map]
      congr 1
      · unfold arrayStepFrom
        simp
      · rw [ihn p (j + 1)]
        simp only [List.length_nil, List.length_cons, Nat.max_eq_right (Nat.zero_le _)]
        congr 1
        refine List.map_congr_left ?_
        intro i _
        simp only [Function.comp_apply, Nat.succ_eq_add_one]
        exact (arrayStepFrom_right_cons_succ n ns p j i).symm
  | cons o os iho =>
    intro ns p j
    cases ns with
    | nil =>
      rw [DiffEngine.compareArraysGo]
      simp only [List.length_nil, List.length_cons, Nat.max_eq_left (Nat.zero_le _),
        List.range_succ_eq_map, List.map_cons, joinChanges_cons, List.map_map]
      congr 1
      · unfold arrayStepFrom
        simp
      · rw [iho [] p (j + 1)]
        simp only [List.length_nil, List.length_cons, Nat.max_eq_left (Nat.zero_le _)]
        congr 1
        refine List.map_congr_left ?_
        intro i _
        simp only [Function.comp_apply, Nat.succ_eq_add_one]
        exact (arrayStepFrom_left_cons_succ o os p j i).symm
    | cons n ns =>
      rw [DiffEngine.compareArraysGo]
      simp only [List.length_cons, Nat.succ_max_succ, List.range_succ_eq_map, List.map_cons,
        joinChanges_cons, List.map_map]
      congr 1
      · unfold arrayStepFrom
        simp
      · rw [iho ns p (j + 1)]
        congr 1
        refine List.map_congr_left ?_
        intro i _
        simp only [Function.comp_apply, Nat.succ_eq_add_one]
        exact (arrayStepFrom_cons_succ o n os ns p j i).symm

namespace DiffEngine

theorem isNull_eq_false {j : Json} (h : j ≠ Json.null) : isNull j = false := by
  cases j <;> simp [isNull] at h ⊢

theorem deepCompare_null_null (p : String) :
    deepCompare .null .null p = ⟨[], [], [], [⟨p, Json.null, "null"⟩]⟩ := by
  rw [deepCompare.eq_def]
  rfl

theorem deepCompare_null_left {v : Json} (hv : v ≠ Json.null) (p : String) :
    deepCompare .null v p = ⟨[⟨p, v, getType v⟩], [], [], []⟩ := by
  cases v with
  | null => exact absurd rfl hv
  | prim a => rw [deepCompare.eq_def]; rfl
  | arr xs => rw [deepCompare.eq_def]; rfl
  | obj fs => rw [deepCompare.eq_def]; rfl

theorem deepCompare_null_right {v : Json} (hv : v ≠ Json.null) (p : String) :
    deepCompare v .null p = ⟨[], [⟨p, v, getType v⟩], [], []⟩ := by
  cases v with
  | null => exact absurd rfl hv
  | prim a => rw [deepCompare.eq_def]; rfl
  | arr xs => rw [deepCompare.eq_def]; rfl
  | obj fs => rw [deepCompare.eq_def]; rfl

theorem deepCompare_type_mismatch {o n : Json} (ho : o ≠ Json.null)
    (hn : n ≠ Json.null) (ht : getType o ≠ getType n) (p : String) :
    deepCompare o n p =
      ⟨[], [], [.typeChange p o n (getType o) (getType n)], []⟩ := by
  cases o <;> cases n <;>
    first
      | exact absurd rfl ho
      | exact absurd rfl hn
      | exact absurd rfl ht
      | (rw [deepCompare.eq_def]; rfl)

theorem deepCompare_obj_obj (oldFs newFs : List (String × Json)) (p : String) :
    deepCompare (.obj oldFs) (.obj newFs) p =
      compareObjectsGo oldFs newFs p
        (dedupFirst (oldFs.map Prod.fst ++ newFs.map Prod.fst)) := by
  rw [deepCompare.eq_def]
  rfl

theorem deepCompare_arr_arr (oldArr newArr : List Json) (p : String) :
    deepCompare (.arr oldArr) (.arr newArr) p = compareArraysGo oldArr newArr p 0 := by
  rw [deepCompare.eq_def]
  rfl

theorem deepCompare_prim_prim (a b : Prim) (p : String) :
    deepCompare (.prim a) (.prim b) p =
      if a ≠ b then ⟨[], [], [.valueChange p (.prim a) (.prim b) "primitive"], []⟩
      else ⟨[], [], [], [⟨p, .prim a, "primitive"⟩]⟩ := by
  rw [deepCompare.eq_def]
  by_cases h : a = b <;> simp [isNull, getType, h]

theorem objStep_some_some {oldFs newFs : List (String × Json)} {k : String}
    {ov nv : Json} (h1 : lookupJ k oldFs = some ov) (h2 : lookupJ k newFs = some nv)
    (p : String) :
    objStep oldFs newFs p k = deepCompare ov nv (childPath p k) := by
  rw [objStep.eq_def]
  split <;> simp_all

theorem objStep_some_none {oldFs newFs : List (String × Json)} {k : String}
    {ov : Json} (h1 : lookupJ k oldFs = some ov) (h2 : lookupJ k newFs = none)
    (p : String) :
    objStep oldFs newFs p k = ⟨[], [⟨childPath p k, ov, getType ov⟩], [], []⟩ := by
  rw [objStep.eq_def]
  split <;> simp_all

theorem objStep_none_some {oldFs newFs : List (String × Json)} {k : String}
    {nv : Json} (h1 : lookupJ k oldFs = none) (h2 : lookupJ k newFs = some nv)
    (p : String) :
    objStep oldFs newFs p k = ⟨[⟨childPath p k, nv, getType nv⟩], [], [], []⟩ := by
  rw [objStep.eq_def]
  split <;> simp_all

theorem objStep_none_none {oldFs newFs : List (String × Json)} {k : String}
    (h1 : lookupJ k oldFs = none) (h2 : lookupJ k newFs = none) (p : String) :
    objStep oldFs newFs p k = Changes.nil := by
  rw [objStep.eq_def]
  split <;> simp_all

end DiffEngine

theorem natDecimal_digit {n : Nat} (h : n < 10) :
    DiffEngine.natDecimal n = [Char.ofNat (48 + n)] := by
  rw [DiffEngine.natDecimal]
  simp [h]

/-- C8: array comparison is strictly positional — the loop visits indices
`0 .. max(len(old), len(new))`, recursing where both elements exist and
reporting surplus old elements Removed and surplus new elements Added at
`path[i]`; concretely, `compare({a:[1,2,3]}, {a:[1,2]})` removes `a[2]` and
leaves `a[0]`, `a[1]` unchanged. -/
theorem positional_array_comparison :
    (∀ (os ns : List Json) (p : String),
      DiffEngine.compareArraysGo os ns p 0 =
        joinChanges ((List.range (max os.length ns.length)).map (arrayStep os ns p))) ∧
    DiffEngine.compare
        (.obj [("a", .arr [.prim (.int 1), .prim (.int 2), .prim (.int 3)])])
        (.obj [("a", .arr [.prim (.int 1), .prim (.int 2)])]) =
      ⟨[], [⟨"a[2]", .prim (.int 3), "primitive"⟩], [],
       [⟨"a[0]", .prim (.int 1), "primitive"⟩, ⟨"a[1]", .prim (.int 2), "primitive"⟩]⟩ := by
  constructor
  · intro os ns p
    rw [compareArraysGo_spec]
    congr 1
    refine List.map_congr_left ?_
    intro i _
    exact arrayStepFrom_zero os ns p i
  · rw [DiffEngine.compare_eq_deepCompare, DiffEngine.deepCompare_obj_obj]
    simp only [List.map_cons, List.map_nil, List.nil_append, List.cons_append]
    rw [show DiffEngine.dedupFirst ["a", "a"] = ["a"] by simp [DiffEngine.dedupFirst]]
    rw [DiffEngine.compareObjectsGo, DiffEngine.compareObjectsGo,
      DiffEngine.objStep_some_some (by rfl) (by rfl),
      DiffEngine.deepCompare_arr_arr]
    rw [DiffEngine.compareArraysGo, DiffEngine.compareArraysGo, DiffEngine.compareArraysGo,
      DiffEngine.compareArraysGo]
    rw [DiffEngine.deepCompare_prim_prim, DiffEngine.deepCompare_prim_prim]
    simp [DiffEngine.Changes.append, DiffEngine.Changes.nil, DiffEngine.childPath,
      DiffEngine.idxPath, natDecimal_digit, DiffEngine.getType]

/-- C1 counterexample: at path `a` the old side is an explicit `null` and the
new side is absent — both sides are "null or absent", so the claim demands a
single Unchanged(`a`, null) record there; the code instead emits
Removed(`a`, null) and no unchanged record at all. -/
theorem null_absent_counterexample :
    DiffEngine.compare (.obj [("a", .null)]) (.obj []) =
      ⟨[], [⟨"a", .null, "null"⟩], [], []⟩ := by
  rw [DiffEngine.compare_eq_deepCompare, DiffEngine.deepCompare_obj_obj]
  simp only [List.map_cons, List.map_nil, List.append_nil]
  rw [show DiffEngine.dedupFirst ["a"] = ["a"] by simp [DiffEngine.dedupFirst]]
  rw [DiffEngine.compareObjectsGo, DiffEngine.compareObjectsGo,
    DiffEngine.objStep_some_none (by rfl) (by rfl)]
  simp [DiffEngine.Changes.append, DiffEngine.Changes.nil, DiffEngine.childPath,
    DiffEngine.getType]


/-- C4 counterexample: the path `a[0]` is producible by the comparator, yet
`getPathParts` deletes its index marker, so re-formatting the parsed segments
yields `a`, not `a[0]`. -/
theorem path_roundtrip_counterexample :
    (DiffEngine.compare (.obj [("a", .arr [.prim (.int 1)])])
        (.obj [("a", .arr [.prim (.int 2)])])).modified.map DiffEngine.ModRec.path =
      ["a[0]"] ∧
    DiffNavigation.getPathParts "a[0]" = ["a"] ∧
    formatPath ((DiffNavigation.getPathParts "a[0]").map Seg.key) = "a" ∧
    ("a" : String) ≠ "a[0]" := by
  refine ⟨?_, by decide, by decide, by decide⟩
  rw [DiffEngine.compare_eq_deepCompare, DiffEngine.deepCompare_obj_obj]
  simp only [List.map_cons, List.map_nil, List.nil_append, List.cons_append]
  rw [show DiffEngine.dedupFirst ["a", "a"] = ["a"] by simp [DiffEngine.dedupFirst]]
  rw [DiffEngine.compareObjectsGo, DiffEngine.compareObjectsGo,
    DiffEngine.objStep_some_some (by rfl) (by rfl), DiffEngine.deepCompare_arr_arr]
  rw [DiffEngine.compareArraysGo, DiffEngine.compareArraysGo,
    DiffEngine.deepCompare_prim_prim]
  simp [DiffEngine.Changes.append, DiffEngine.Changes.nil, DiffEngine.childPath,
    DiffEngine.idxPath, natDecimal_digit, DiffEngine.ModRec.path]

/-- C10 counterexample: with an empty object key — a key containing none of
`.`, `[`, `]` — two distinct tree locations collapse to the same path `b`,
which then occurs in two unchanged records of one comparison. -/
theorem path_disjointness_counterexample :
    keysOK cleanKey (.obj [("", .obj [("b", .prim (.int 1))]), ("b", .prim (.int 2))]) = true ∧
    ¬ (DiffEngine.Changes.allPaths (DiffEngine.compare
        (.obj [("", .obj [("b", .prim (.int 1))]), ("b", .prim (.int 2))])
        (.obj [("", .obj [("b", .prim (.int 1))]), ("b", .prim (.int 2))]))).Nodup := by
  constructor
  · simp [keysOK, keysOKFields, keysOKList, cleanKey]
  · have h : DiffEngine.compare
        (.obj [("", .obj [("b", .prim (.int 1))]), ("b", .prim (.int 2))])
        (.obj [("", .obj [("b", .prim (.int 1))]), ("b", .prim (.int 2))]) =
        ⟨[], [], [], [⟨"b", .prim (.int 1), "primitive"⟩, ⟨"b", .prim (.int 2), "primitive"⟩]⟩ := by
      rw [DiffEngine.compare_eq_deepCompare, DiffEngine.deepCompare_obj_obj]
      simp only [List.map_cons, List.map_nil, List.cons_append, List.nil_append]
      rw [show DiffEngine.dedupFirst ["", "b", "", "b"] = ["", "b"] by
        simp [DiffEngine.dedupFirst]]
      rw [DiffEngine.compareObjectsGo, DiffEngine.compareObjectsGo,
        DiffEngine.compareObjectsGo,
        DiffEngine.objStep_some_some (k := "") (by rfl) (by rfl),
        DiffEngine.objStep_some_some (k := "b") (by rfl) (by rfl),
        DiffEngine.deepCompare_obj_obj, DiffEngine.deepCompare_prim_prim]
      simp only [List.map_cons, List.map_nil, List.cons_append, List.nil_append]
      rw [show DiffEngine.dedupFirst ["b", "b"] = ["b"] by simp [DiffEngine.dedupFirst]]
      rw [DiffEngine.compareObjectsGo, DiffEngine.compareObjectsGo,
        DiffEngine.objStep_some_some (k := "b") (by rfl) (by rfl),
        DiffEngine.deepCompare_prim_prim]
      simp [DiffEngine.Changes.append, DiffEngine.Changes.nil, DiffEngine.childPath]
    rw [h]
    decide

theorem dedupFirst_append_subset :
    ∀ (l1 l2 : List String), l2 ⊆ l1 →
      DiffEngine.dedupFirst (l1 ++ l2) = DiffEngine.dedupFirst l1
  | [], l2, h => by
      rw [List.subset_nil.mp h]
      rfl
  | k :: l1, l2, h => by
      rw [List.cons_append, DiffEngine.dedupFirst, DiffEngine.dedupFirst,
        List.filter_append]
      have hsub : l2.filter (fun k' => k' ≠ k) ⊆ l1.filter (fun k' => k' ≠ k) := by
        intro x hx
        rw [List.mem_filter] at hx ⊢
        refine ⟨?_, hx.2⟩
        have hx2 : x ≠ k := by simpa using hx.2
        have := h hx.1
        simp only [List.mem_cons] at this
        tauto
      rw [dedupFirst_append_subset _ _ hsub]
termination_by l1 l2 => l1.length
decreasing_by
  simp only [List.length_cons]
  exact Nat.lt_succ_of_le (List.length_filter_le _ _)

theorem dedupFirst_nodup_eq {ks : List String} (h : nodupKeysB ks = true) :
    DiffEngine.dedupFirst ks = ks := by
  induction ks with
  | nil => simp [DiffEngine.dedupFirst]
  | cons k ks ih =>
    rw [nodupKeysB] at h
    simp only [Bool.and_eq_true, Bool.not_eq_true'] at h
    rw [DiffEngine.dedupFirst]
    have hmem : k ∉ ks := by
      have h1 := h.1
      simp at h1
      exact h1
    have hfilter : ks.filter (fun k' => k' ≠ k) = ks := by
      rw [List.filter_eq_self]
      intro a ha
      simp only [ne_eq, decide_eq_true_eq]
      intro hak
      exact hmem (hak ▸ ha)
    rw [hfilter, ih h.2]

theorem lookupJ_cons_self (k : String) (v : Json) (fs : List (String × Json)) :
    DiffEngine.lookupJ k ((k, v) :: fs) = some v := by
  simp [DiffEngine.lookupJ]

theorem lookupJ_cons_ne {k k' : String} (h : k' ≠ k) (v : Json)
    (fs : List (String × Json)) :
    DiffEngine.lookupJ k ((k', v) :: fs) = DiffEngine.lookupJ k fs := by
  simp [DiffEngine.lookupJ, h]

theorem objStep_congr {oldFs newFs oldFs' newFs' : List (String × Json)} {k : String}
    (h1 : DiffEngine.lookupJ k oldFs = DiffEngine.lookupJ k oldFs')
    (h2 : DiffEngine.lookupJ k newFs = DiffEngine.lookupJ k newFs') (p : String) :
    DiffEngine.objStep oldFs newFs p k = DiffEngine.objStep oldFs' newFs' p k := by
  match hO : DiffEngine.lookupJ k oldFs, hN : DiffEngine.lookupJ k newFs with
  | some ov, some nv =>
    rw [DiffEngine.objStep_some_some hO hN, DiffEngine.objStep_some_some (h1 ▸ hO) (h2 ▸ hN)]
  | some ov, none =>
    rw [DiffEngine.objStep_some_none hO hN, DiffEngine.objStep_some_none (h1 ▸ hO) (h2 ▸ hN)]
  | none, some nv =>
    rw [DiffEngine.objStep_none_some hO hN, DiffEngine.objStep_none_some (h1 ▸ hO) (h2 ▸ hN)]
  | none, none =>
    rw [DiffEngine.objStep_none_none hO hN, DiffEngine.objStep_none_none (h1 ▸ hO) (h2 ▸ hN)]

theorem compareObjectsGo_congr {oldFs newFs oldFs' newFs' : List (String × Json)}
    (p : String) :
    ∀ ks : List String,
    (∀ k ∈ ks, DiffEngine.lookupJ k oldFs = DiffEngine.lookupJ k oldFs' ∧
      DiffEngine.lookupJ k newFs = DiffEngine.lookupJ k newFs') →
    DiffEngine.compareObjectsGo oldFs newFs p ks =
      DiffEngine.compareObjectsGo oldFs' newFs' p ks
  | [], _ => by rw [DiffEngine.compareObjectsGo, DiffEngine.compareObjectsGo]
  | k :: ks, h => by
    rw [DiffEngine.compareObjectsGo, DiffEngine.compareObjectsGo]
    have hk := h k (List.mem_cons_self k ks)
    rw [objStep_congr hk.1 hk.2 p,
      compareObjectsGo_congr p ks (fun k' hk' => h k' (List.mem_cons_of_mem _ hk'))]

mutual

theorem deepCompare_self : ∀ (j : Json) (p : String), wfKeys j = true →
    DiffEngine.deepCompare j j p = ⟨[], [], [], leafRecords j p⟩
  | .null, p, _ => by
      rw [DiffEngine.deepCompare_null_null, leafRecords]
  | .prim a, p, _ => by
      rw [DiffEngine.deepCompare_prim_prim, leafRecords]
      simp
  | .arr xs, p, h => by
      rw [DiffEngine.deepCompare_arr_arr, leafRecords]
      rw [wfKeys] at h
      exact compareArraysGo_self xs p 0 h
  | .obj fs, p, h => by
      rw [DiffEngine.deepCompare_obj_obj, leafRecords]
      rw [wfKeys] at h
      simp only [Bool.and_eq_true] at h
      rw [dedupFirst_append_subset _ _ (fun x hx => hx), dedupFirst_nodup_eq h.1]
      exact compareObjectsGo_self fs p h.1 h.2
termination_by j _ _ => sizeOf j

theorem compareArraysGo_self : ∀ (xs : List Json) (p : String) (i : Nat),
    wfKeysList xs = true →
    DiffEngine.compareArraysGo xs xs p i = ⟨[], [], [], leafRecordsList xs p i⟩
  | [], p, i, _ => by
      rw [DiffEngine.compareArraysGo, leafRecordsList]
      rfl
  | x :: xs, p, i, h => by
      rw [wfKeysList] at h
      simp only [Bool.and_eq_true] at h
      rw [DiffEngine.compareArraysGo, leafRecordsList,
        deepCompare_self x (DiffEngine.idxPath p i) h.1,
        compareArraysGo_self xs p (i + 1) h.2]
      rfl
termination_by xs _ _ _ => sizeOf xs

theorem compareObjectsGo_self : ∀ (fs : List (String × Json)) (p : String),
    nodupKeysB (fs.map Prod.fst) = true → wfKeysFields fs = true →
    DiffEngine.compareObjectsGo fs fs p (fs.map Prod.fst) =
      ⟨[], [], [], leafRecordsFields fs p⟩
  | [], p, _, _ => by
      rw [List.map_nil, DiffEngine.compareObjectsGo, leafRecordsFields]
      rfl
  | (k, v) :: fs, p, hnd, hwf => by
      rw [List.map_cons] at hnd
      rw [List.map_cons, DiffEngine.compareObjectsGo, leafRecordsFields]
      rw [nodupKeysB] at hnd
      simp only [Bool.and_eq_true, Bool.not_eq_true'] at hnd
      rw [wfKeysFields] at hwf
      simp only [Bool.and_eq_true] at hwf
      have hmem : k ∉ fs.map Prod.fst := by
        have h1 := hnd.1
        simpa using h1
      rw [DiffEngine.objStep_some_some (lookupJ_cons_self k v fs) (lookupJ_cons_self k v fs),
        deepCompare_self v (DiffEngine.childPath p k) hwf.1]
      rw [compareObjectsGo_congr p (fs.map Prod.fst) (fun k' hk' => by
        have hne : k' ≠ k := fun he => hmem (he ▸ hk')
        exact ⟨lookupJ_cons_ne (Ne.symm hne) v fs, lookupJ_cons_ne (Ne.symm hne) v fs⟩)]
      rw [compareObjectsGo_self fs p hnd.2 hwf.2]
      rfl
termination_by fs _ _ _ => sizeOf fs

end

/-- C7: reflexivity — comparing a well-formed value with itself yields empty
added/removed/modified sequences, and the unchanged sequence is exactly one
record per leaf (primitive or null node) of the value, in traversal order. -/
theorem reflexivity_unchanged_leaves (X : Json) (h : wfKeys X = true) :
    DiffEngine.compare X X = ⟨[], [], [], leafRecords X ""⟩ := by
  rw [DiffEngine.compare_eq_deepCompare]
  exact deepCompare_self X "" h

/-- Witness for C7 at `X = {a: 1}`: the unchanged sequence is exactly
`[{path: "a", value: 1}]` and the other three sequences are empty. -/
theorem reflexivity_unchanged_leaves_witness :
    wfKeys (.obj [("a", .prim (.int 1))]) = true ∧
    DiffEngine.compare (.obj [("a", .prim (.int 1))]) (.obj [("a", .prim (.int 1))]) =
      ⟨[], [], [], [⟨"a", .prim (.int 1), "primitive"⟩]⟩ := by
  have hwf : wfKeys (Json.obj [("a", Json.prim (Prim.int 1))]) = true := by
    simp [wfKeys, wfKeysFields, wfKeysList, nodupKeysB]
  refine ⟨hwf, ?_⟩
  rw [reflexivity_unchanged_leaves _ hwf]
  simp [leafRecords, leafRecordsFields, leafRecordsList, DiffEngine.childPath]

/-- The `{path, value}` pairs of the added sequence (§8 antisymmetry is
stated set-wise over these pairs). -/
def addedPair (c : DiffEngine.Changes) (q : String) (v : Json) : Prop :=
  ∃ r ∈ c.added, r.path = q ∧ r.value = v

/-- The `{path, value}` pairs of the removed sequence. -/
def removedPair (c : DiffEngine.Changes) (q : String) (v : Json) : Prop :=
  ∃ r ∈ c.removed, r.path = q ∧ r.value = v

/-- The `{path, oldValue, newValue}` triples of the modified sequence. -/
def modPair (c : DiffEngine.Changes) (q : String) (ov nv : Json) : Prop :=
  ∃ r ∈ c.modified, r.path = q ∧ r.oldValue = ov ∧ r.newValue = nv

theorem addedPair_append {c1 c2 : DiffEngine.Changes} {q : String} {v : Json} :
    addedPair (c1.append c2) q v ↔ addedPair c1 q v ∨ addedPair c2 q v := by
  simp only [addedPair, DiffEngine.Changes.append]
  constructor
  · rintro ⟨r, hr, hq, hv⟩
    rcases List.mem_append.mp hr with h | h
    · exact Or.inl ⟨r, h, hq, hv⟩
    · exact Or.inr ⟨r, h, hq, hv⟩
  · rintro (⟨r, hr, hq, hv⟩ | ⟨r, hr, hq, hv⟩)
    · exact ⟨r, List.mem_append.mpr (Or.inl hr), hq, hv⟩
    · exact ⟨r, List.mem_append.mpr (Or.inr hr), hq, hv⟩

theorem removedPair_append {c1 c2 : DiffEngine.Changes} {q : String} {v : Json} :
    removedPair (c1.append c2) q v ↔ removedPair c1 q v ∨ removedPair c2 q v := by
  simp only [removedPair, DiffEngine.Changes.append]
  constructor
  · rintro ⟨r, hr, hq, hv⟩
    rcases List.mem_append.mp hr with h | h
    · exact Or.inl ⟨r, h, hq, hv⟩
    · exact Or.inr ⟨r, h, hq, hv⟩
  · rintro (⟨r, hr, hq, hv⟩ | ⟨r, hr, hq, hv⟩)
    · exact ⟨r, List.mem_append.mpr (Or.inl hr), hq, hv⟩
    · exact ⟨r, List.mem_append.mpr (Or.inr hr), hq, hv⟩

theorem modPair_append {c1 c2 : DiffEngine.Changes} {q : String} {ov nv : Json} :
    modPair (c1.append c2) q ov nv ↔ modPair c1 q ov nv ∨ modPair c2 q ov nv := by
  simp only [modPair, DiffEngine.Changes.append]
  constructor
  · rintro ⟨r, hr, hq, hv⟩
    rcases List.mem_append.mp hr with h | h
    · exact Or.inl ⟨r, h, hq, hv⟩
    · exact Or.inr ⟨r, h, hq, hv⟩
  · rintro (⟨r, hr, hq, hv⟩ | ⟨r, hr, hq, hv⟩)
    · exact ⟨r, List.mem_append.mpr (Or.inl hr), hq, hv⟩
    · exact ⟨r, List.mem_append.mpr (Or.inr hr), hq, hv⟩

theorem addedPair_join {l : List DiffEngine.Changes} {q : String} {v : Json} :
    addedPair (joinChanges l) q v ↔ ∃ c ∈ l, addedPair c q v := by
  induction l with
  | nil => simp [joinChanges, addedPair, DiffEngine.Changes.nil]
  | cons c l ih =>
    rw [joinChanges_cons]
    rw [addedPair_append, ih]
    simp

theorem removedPair_join {l : List DiffEngine.Changes} {q : String} {v : Json} :
    removedPair (joinChanges l) q v ↔ ∃ c ∈ l, removedPair c q v := by
  induction l with
  | nil => simp [joinChanges, removedPair, DiffEngine.Changes.nil]
  | cons c l ih =>
    rw [joinChanges_cons]
    rw [removedPair_append, ih]
    simp

theorem modPair_join {l : List DiffEngine.Changes} {q : String} {ov nv : Json} :
    modPair (joinChanges l) q ov nv ↔ ∃ c ∈ l, modPair c q ov nv := by
  induction l with
  | nil => simp [joinChanges, modPair, DiffEngine.Changes.nil]
  | cons c l ih =>
    rw [joinChanges_cons]
    rw [modPair_append, ih]
    simp

theorem mem_dedupFirst : ∀ {x : String} {l : List String},
    x ∈ DiffEngine.dedupFirst l ↔ x ∈ l
  | x, [] => by simp [DiffEngine.dedupFirst]
  | x, k :: ks => by
    rw [DiffEngine.dedupFirst]
    by_cases hx : x = k
    · subst hx
      simp
    · simp only [List.mem_cons, hx, false_or]
      rw [mem_dedupFirst]
      simp [List.mem_filter, hx]
termination_by x l => l.length
decreasing_by
  simp only [List.length_cons]
  exact Nat.lt_succ_of_le (List.length_filter_le _ _)

/-- The antisymmetry relation between one comparison result and the result
with the arguments swapped: added pairs become removed pairs and modified
triples swap their old and new values. -/
def antisymAt (cXY cYX : DiffEngine.Changes) : Prop :=
  (∀ q v, addedPair cXY q v ↔ removedPair cYX q v) ∧
  (∀ q v, removedPair cXY q v ↔ addedPair cYX q v) ∧
  (∀ q ov nv, modPair cXY q ov nv ↔ modPair cYX q nv ov)

theorem antisymAt_append {a a' b b' : DiffEngine.Changes}
    (ha : antisymAt a a') (hb : antisymAt b b') :
    antisymAt (a.append b) (a'.append b') := by
  obtain ⟨ha1, ha2, ha3⟩ := ha
  obtain ⟨hb1, hb2, hb3⟩ := hb
  refine ⟨?_, ?_, ?_⟩
  · intro q v
    rw [addedPair_append, removedPair_append, ha1, hb1]
  · intro q v
    rw [addedPair_append, removedPair_append, ha2, hb2]
  · intro q ov nv
    rw [modPair_append, modPair_append, ha3, hb3]

theorem antisymAt_joinMap {oldFs newFs : List (String × Json)} {p : String}
    {ks1 ks2 : List String} (hks : ∀ k, k ∈ ks1 ↔ k ∈ ks2)
    (hstep : ∀ k, antisymAt (DiffEngine.objStep oldFs newFs p k)
      (DiffEngine.objStep newFs oldFs p k)) :
    antisymAt (joinChanges (ks1.map (DiffEngine.objStep oldFs newFs p)))
      (joinChanges (ks2.map (DiffEngine.objStep newFs oldFs p))) := by
  refine ⟨?_, ?_, ?_⟩
  · intro q v
    rw [addedPair_join, removedPair_join]
    constructor
    · rintro ⟨c, hc, hpair⟩
      obtain ⟨k, hk, rfl⟩ := List.mem_map.mp hc
      exact ⟨_, List.mem_map.mpr ⟨k, (hks k).mp hk, rfl⟩, ((hstep k).1 q v).mp hpair⟩
    · rintro ⟨c, hc, hpair⟩
      obtain ⟨k, hk, rfl⟩ := List.mem_map.mp hc
      exact ⟨_, List.mem_map.mpr ⟨k, (hks k).mpr hk, rfl⟩, ((hstep k).1 q v).mpr hpair⟩
  · intro q v
    rw [addedPair_join, removedPair_join]
    constructor
    · rintro ⟨c, hc, hpair⟩
      obtain ⟨k, hk, rfl⟩ := List.mem_map.mp hc
      exact ⟨_, List.mem_map.mpr ⟨k, (hks k).mp hk, rfl⟩, ((hstep k).2.1 q v).mp hpair⟩
    · rintro ⟨c, hc, hpair⟩
      obtain ⟨k, hk, rfl⟩ := List.mem_map.mp hc
      exact ⟨_, List.mem_map.mpr ⟨k, (hks k).mpr hk, rfl⟩, ((hstep k).2.1 q v).mpr hpair⟩
  · intro q ov nv
    rw [modPair_join, modPair_join]
    constructor
    · rintro ⟨c, hc, hpair⟩
      obtain ⟨k, hk, rfl⟩ := List.mem_map.mp hc
      exact ⟨_, List.mem_map.mpr ⟨k, (hks k).mp hk, rfl⟩, ((hstep k).2.2 q ov nv).mp hpair⟩
    · rintro ⟨c, hc, hpair⟩
      obtain ⟨k, hk, rfl⟩ := List.mem_map.mp hc
      exact ⟨_, List.mem_map.mpr ⟨k, (hks k).mpr hk, rfl⟩, ((hstep k).2.2 q ov nv).mpr hpair⟩

mutual

theorem antisym_deep : ∀ (o n : Json) (p : String),
    antisymAt (DiffEngine.deepCompare o n p) (DiffEngine.deepCompare n o p)
  | .null, .null, p => by
      rw [DiffEngine.deepCompare_null_null]
      refine ⟨?_, ?_, ?_⟩ <;> intro q v <;>
        simp [addedPair, removedPair, modPair]
  | .null, .prim b, p => by
      rw [DiffEngine.deepCompare_null_left (by simp) p,
        DiffEngine.deepCompare_null_right (by simp) p]
      refine ⟨?_, ?_, ?_⟩ <;> intro q v <;>
        simp [addedPair, removedPair, modPair]
  | .null, .arr ns, p => by
      rw [DiffEngine.deepCompare_null_left (by simp) p,
        DiffEngine.deepCompare_null_right (by simp) p]
      refine ⟨?_, ?_, ?_⟩ <;> intro q v <;>
        simp [addedPair, removedPair, modPair]
  | .null, .obj nfs, p => by
      rw [DiffEngine.deepCompare_null_left (by simp) p,
        DiffEngine.deepCompare_null_right (by simp) p]
      refine ⟨?_, ?_, ?_⟩ <;> intro q v <;>
        simp [addedPair, removedPair, modPair]
  | .prim a, .null, p => by
      rw [DiffEngine.deepCompare_null_left (by simp) p,
        DiffEngine.deepCompare_null_right (by simp) p]
      refine ⟨?_, ?_, ?_⟩ <;> intro q v <;>
        simp [addedPair, removedPair, modPair]
  | .arr os, .null, p => by
      rw [DiffEngine.deepCompare_null_left (by simp) p,
        DiffEngine.deepCompare_null_right (by simp) p]
      refine ⟨?_, ?_, ?_⟩ <;> intro q v <;>
        simp [addedPair, removedPair, modPair]
  | .obj ofs, .null, p => by
      rw [DiffEngine.deepCompare_null_left (by simp) p,
        DiffEngine.deepCompare_null_right (by simp) p]
      refine ⟨?_, ?_, ?_⟩ <;> intro q v <;>
        simp [addedPair, removedPair, modPair]
  | .prim a, .prim b, p => by
      rw [DiffEngine.deepCompare_prim_prim, DiffEngine.deepCompare_prim_prim]
      by_cases hab : a = b
      · subst hab
        rw [if_neg (fun h => h rfl)]
        refine ⟨?_, ?_, ?_⟩ <;> intro q v <;>
          simp [addedPair, removedPair, modPair]
      · rw [if_pos (by exact hab), if_pos (fun h => hab h.symm)]
        refine ⟨?_, ?_, ?_⟩
        · intro q v
          simp [addedPair, removedPair]
        · intro q v
          simp [addedPair, removedPair]
        · intro q ov nv
          simp [modPair, DiffEngine.ModRec.path, DiffEngine.ModRec.oldValue,
            DiffEngine.ModRec.newValue]
          tauto
  | .prim a, .arr ns, p => antisym_mismatch (by simp) (by simp) (by simp [DiffEngine.getType]) p
  | .prim a, .obj nfs, p => antisym_mismatch (by simp) (by simp) (by simp [DiffEngine.getType]) p
  | .arr os, .prim b, p => antisym_mismatch (by simp) (by simp) (by simp [DiffEngine.getType]) p
  | .arr os, .obj nfs, p => antisym_mismatch (by simp) (by simp) (by simp [DiffEngine.getType]) p
  | .obj ofs, .prim b, p => antisym_mismatch (by simp) (by simp) (by simp [DiffEngine.getType]) p
  | .obj ofs, .arr ns, p => antisym_mismatch (by simp) (by simp) (by simp [DiffEngine.getType]) p
  | .arr os, .arr ns, p => by
      rw [DiffEngine.deepCompare_arr_arr, DiffEngine.deepCompare_arr_arr]
      exact antisym_arr os ns p 0
  | .obj ofs, .obj nfs, p => by
      rw [DiffEngine.deepCompare_obj_obj, DiffEngine.deepCompare_obj_obj,
        compareObjectsGo_eq_join, compareObjectsGo_eq_join]
      refine antisymAt_joinMap ?_ ?_
      · intro k
        rw [mem_dedupFirst, mem_dedupFirst, List.mem_append, List.mem_append]
        tauto
      · intro k
        exact antisym_objStep ofs nfs p k
termination_by o n p => (sizeOf o + sizeOf n, 1)

theorem antisym_mismatch : ∀ {o n : Json}, o ≠ Json.null → n ≠ Json.null →
    DiffEngine.getType o ≠ DiffEngine.getType n → ∀ (p : String),
    antisymAt (DiffEngine.deepCompare o n p) (DiffEngine.deepCompare n o p)
  | o, n, ho, hn, ht, p => by
      rw [DiffEngine.deepCompare_type_mismatch ho hn ht,
        DiffEngine.deepCompare_type_mismatch hn ho (Ne.symm ht)]
      refine ⟨?_, ?_, ?_⟩
      · intro q v
        simp [addedPair, removedPair]
      · intro q v
        simp [addedPair, removedPair]
      · intro q ov nv
        simp [modPair, DiffEngine.ModRec.path, DiffEngine.ModRec.oldValue,
          DiffEngine.ModRec.newValue]
        tauto

theorem antisym_objStep : ∀ (oldFs newFs : List (String × Json)) (p k : String),
    antisymAt (DiffEngine.objStep oldFs newFs p k) (DiffEngine.objStep newFs oldFs p k)
  | oldFs, newFs, p, k => by
      match hO : DiffEngine.lookupJ k oldFs, hN : DiffEngine.lookupJ k newFs with
      | some ov, some nv =>
        rw [DiffEngine.objStep_some_some hO hN, DiffEngine.objStep_some_some hN hO]
        exact antisym_deep ov nv (DiffEngine.childPath p k)
      | some ov, none =>
        rw [DiffEngine.objStep_some_none hO hN, DiffEngine.objStep_none_some hN hO]
        refine ⟨?_, ?_, ?_⟩ <;> intro q v <;>
          simp [addedPair, removedPair, modPair]
      | none, some nv =>
        rw [DiffEngine.objStep_none_some hO hN, DiffEngine.objStep_some_none hN hO]
        refine ⟨?_, ?_, ?_⟩ <;> intro q v <;>
          simp [addedPair, removedPair, modPair]
      | none, none =>
        rw [DiffEngine.objStep_none_none hO hN, DiffEngine.objStep_none_none hN hO]
        refine ⟨?_, ?_, ?_⟩ <;> intro q v <;>
          simp [addedPair, removedPair, modPair, DiffEngine.Changes.nil]
termination_by oldFs newFs p k => (sizeOf oldFs + sizeOf newFs, 2)
decreasing_by
  apply Prod.Lex.left
  have h1 := DiffEngine.lookupJ_sizeOf hO
  have h2 := DiffEngine.lookupJ_sizeOf hN
  omega

theorem antisym_arr : ∀ (os ns : List Json) (p : String) (i : Nat),
    antisymAt (DiffEngine.compareArraysGo os ns p i)
      (DiffEngine.compareArraysGo ns os p i)
  | [], [], p, i => by
      rw [DiffEngine.compareArraysGo]
      refine ⟨?_, ?_, ?_⟩ <;> intro q v <;>
        simp [addedPair, removedPair, modPair, DiffEngine.Changes.nil]
  | o :: os, n :: ns, p, i => by
      rw [DiffEngine.compareArraysGo, DiffEngine.compareArraysGo]
      exact antisymAt_append (antisym_deep o n (DiffEngine.idxPath p i))
        (antisym_arr os ns p (i + 1))
  | o :: os, [], p, i => by
      rw [DiffEngine.compareArraysGo, DiffEngine.compareArraysGo]
      refine antisymAt_append ?_ (antisym_arr os [] p (i + 1))
      refine ⟨?_, ?_, ?_⟩ <;> intro q v <;>
        simp [addedPair, removedPair, modPair]
  | [], n :: ns, p, i => by
      rw [DiffEngine.compareArraysGo, DiffEngine.compareArraysGo]
      refine antisymAt_append ?_ (antisym_arr [] ns p (i + 1))
      refine ⟨?_, ?_, ?_⟩ <;> intro q v <;>
        simp [addedPair, removedPair, modPair]
termination_by os ns p i => (sizeOf os + sizeOf ns, 0)

end

/-- C3: antisymmetry — swapping the two inputs turns added pairs into removed
pairs (set-equal on `{path, value}`), removed into added, and swaps
`oldValue`/`newValue` in the modified records at the same paths. -/
theorem compare_antisymmetry (X Y : Json) :
    (∀ q v, addedPair (DiffEngine.compare X Y) q v ↔
      removedPair (DiffEngine.compare Y X) q v) ∧
    (∀ q v, removedPair (DiffEngine.compare X Y) q v ↔
      addedPair (DiffEngine.compare Y X) q v) ∧
    (∀ q ov nv, modPair (DiffEngine.compare X Y) q ov nv ↔
      modPair (DiffEngine.compare Y X) q nv ov) := by
  rw [DiffEngine.compare_eq_deepCompare, DiffEngine.compare_eq_deepCompare]
  exact antisym_deep X Y ""

namespace DiffNavigation

theorem splitDot_ne_nil : ∀ cs : List Char, splitDot cs ≠ []
  | [] => by simp [splitDot]
  | c :: cs => by
    rw [splitDot]
    cases h : splitDot cs with
    | nil => exact absurd h (splitDot_ne_nil cs)
    | cons s ss => by_cases hc : c = '.' <;> simp [hc]

theorem matchIdxAt_not_bracket {c : Char} (cs : List Char) (h : c ≠ '[') :
    matchIdxAt (c :: cs) = none := by
  rw [matchIdxAt.eq_def]
  split <;> simp_all

theorem stripFirstIdx_no_bracket : ∀ {cs : List Char}, '[' ∉ cs →
    stripFirstIdx cs = cs
  | [], _ => rfl
  | c :: cs, h => by
    have hc : c ≠ '[' := fun he => h (he ▸ List.mem_cons_self c cs)
    have hcs : '[' ∉ cs := fun he => h (List.mem_cons_of_mem c he)
    rw [stripFirstIdx, matchIdxAt_not_bracket cs hc, stripFirstIdx_no_bracket hcs]

theorem splitDot_no_dot : ∀ {cs : List Char}, '.' ∉ cs → splitDot cs = [cs]
  | [], _ => rfl
  | c :: cs, h => by
    have hc : c ≠ '.' := fun he => h (he ▸ List.mem_cons_self c cs)
    have hcs : '.' ∉ cs := fun he => h (List.mem_cons_of_mem c he)
    rw [splitDot, splitDot_no_dot hcs]
    simp [hc]

theorem splitDot_append_dot : ∀ (xs : List Char) {ys : List Char}, '.' ∉ ys →
    splitDot (xs ++ '.' :: ys) = splitDot xs ++ [ys]
  | [], ys, h => by
    rw [List.nil_append, splitDot.eq_def]
    simp only [splitDot_no_dot h]
    simp [splitDot]
  | c :: xs, ys, h => by
    rw [List.cons_append, splitDot.eq_def]
    simp only [splitDot_append_dot xs h]
    obtain ⟨s, ss, hsplit⟩ := List.exists_cons_of_ne_nil (splitDot_ne_nil xs)
    conv_rhs => rw [splitDot.eq_def]
    simp only [hsplit, List.cons_append]
    by_cases hc : c = '.' <;> simp [hc]

end DiffNavigation

/-- The round-trip property of §8 at one path: re-formatting the parsed
parts as key segments reproduces the path. -/
def roundTrips (p : String) : Prop :=
  formatPath ((DiffNavigation.getPathParts p).map Seg.key) = p

theorem roundTrips_empty : roundTrips "" := rfl

theorem formatPath_key_snoc (parts : List String) (k : String) :
    formatPath ((parts ++ [k]).map Seg.key) =
      DiffEngine.childPath (formatPath (parts.map Seg.key)) k := by
  rw [formatPath, List.map_append, List.foldl_append]
  rfl

theorem cleanKey_no_dot {k : String} (h : cleanKey k = true) : '.' ∉ k.data := by
  rw [cleanKey] at h
  simp only [Bool.and_eq_true, Bool.not_eq_true'] at h
  have := h.1.1
  simp at this
  exact this

theorem cleanKey_no_bracket {k : String} (h : cleanKey k = true) : '[' ∉ k.data := by
  rw [cleanKey] at h
  simp only [Bool.and_eq_true, Bool.not_eq_true'] at h
  have := h.1.2
  simp at this
  exact this

theorem getPathParts_childPath {p k : String} (hp : p ≠ "") (hk : cleanKey k = true) :
    DiffNavigation.getPathParts (DiffEngine.childPath p k) =
      DiffNavigation.getPathParts p ++ [k] := by
  rw [DiffEngine.childPath, if_neg hp]
  rw [DiffNavigation.getPathParts, DiffNavigation.getPathParts]
  have hdata : (p ++ "." ++ k).data = p.data ++ '.' :: k.data := by
    rw [String.data_append, String.data_append, List.append_assoc]
    rfl
  rw [hdata, DiffNavigation.splitDot_append_dot p.data (cleanKey_no_dot hk)]
  rw [List.map_append, List.map_cons, List.map_nil]
  congr 1
  rw [DiffNavigation.stripFirstIdx_no_bracket (cleanKey_no_bracket hk)]

theorem roundTrips_childPath {p k : String} (hrt : roundTrips p)
    (hk : cleanKey k = true) : roundTrips (DiffEngine.childPath p k) := by
  by_cases hp : p = ""
  · subst hp
    rw [roundTrips, DiffEngine.childPath, if_pos rfl, DiffNavigation.getPathParts,
      DiffNavigation.splitDot_no_dot (cleanKey_no_dot hk), List.map_cons, List.map_nil,
      DiffNavigation.stripFirstIdx_no_bracket (cleanKey_no_bracket hk)]
    show DiffEngine.childPath "" ⟨k.data⟩ = k
    rw [DiffEngine.childPath, if_pos rfl]
  · rw [roundTrips, getPathParts_childPath hp hk, formatPath_key_snoc, hrt]

theorem roundTrips_foldl : ∀ (ks : List String) (p : String),
    (∀ k ∈ ks, cleanKey k = true) → roundTrips p →
    roundTrips (List.foldl appendSeg p (ks.map Seg.key))
  | [], p, _, hrt => hrt
  | k :: ks, p, h, hrt => by
    rw [List.map_cons, List.foldl_cons]
    exact roundTrips_foldl ks (appendSeg p (Seg.key k))
      (fun k' hk' => h k' (List.mem_cons_of_mem _ hk'))
      (roundTrips_childPath hrt (h k (List.mem_cons_self k ks)))

/-- C4 as amended: for paths built solely from object keys free of `.`, `[`,
`]` — no array-index segments — parsing with `getPathParts` and re-formatting
the parts as key segments reproduces the path exactly. -/
theorem path_roundtrip_keys_only (ks : List String)
    (h : ∀ k ∈ ks, cleanKey k = true) :
    formatPath ((DiffNavigation.getPathParts (formatPath (ks.map Seg.key))).map Seg.key) =
      formatPath (ks.map Seg.key) :=
  roundTrips_foldl ks "" h roundTrips_empty

/-- Witness for the amended C4 at `ks = ["a", "b"]` (path `a.b`). -/
theorem path_roundtrip_keys_only_witness :
    formatPath ((DiffNavigation.getPathParts
        (formatPath [Seg.key "a", Seg.key "b"])).map Seg.key) =
      formatPath [Seg.key "a", Seg.key "b"] :=
  path_roundtrip_keys_only ["a", "b"] (by decide)

/-- A good object key for path addressing: none of `.`, `[`, `]` and
nonempty. -/
def goodKey (k : String) : Bool := cleanKey k && !(k == "")

/-- The shapes a path suffix produced below a node can take: empty (the
node itself), or continuing with a key separator `.` or an index marker
`[`. -/
def extOk (s : List Char) : Prop :=
  s = [] ∨ (∃ t, s = '.' :: t) ∨ (∃ t, s = '[' :: t)

theorem extOk_nil : extOk [] := Or.inl rfl

theorem extOk_dot (t : List Char) : extOk ('.' :: t) := Or.inr (Or.inl ⟨t, rfl⟩)

theorem extOk_bracket (t : List Char) : extOk ('[' :: t) := Or.inr (Or.inr ⟨t, rfl⟩)

/-- Two clean keys followed by suffix material can only produce the same
character string if the keys agree. -/
theorem clean_ext_inj : ∀ (k1 k2 : List Char) {s1 s2 : List Char},
    '.' ∉ k1 → '[' ∉ k1 → '.' ∉ k2 → '[' ∉ k2 → extOk s1 → extOk s2 →
    k1 ++ s1 = k2 ++ s2 → k1 = k2
  | [], [], s1, s2, _, _, _, _, _, _, _ => rfl
  | [], d :: k2, s1, s2, _, _, hd2, hb2, he1, _, heq => by
    rw [List.nil_append] at heq
    rcases he1 with h | ⟨t, ht⟩ | ⟨t, ht⟩
    · rw [h] at heq
      exact absurd heq.symm (List.cons_ne_nil d (k2 ++ s2))
    · rw [ht] at heq
      have : d = '.' := (List.cons.injEq _ _ _ _ ▸ heq).1.symm
      exact absurd (this ▸ List.mem_cons_self d k2) hd2
    · rw [ht] at heq
      have : d = '[' := (List.cons.injEq _ _ _ _ ▸ heq).1.symm
      exact absurd (this ▸ List.mem_cons_self d k2) hb2
  | c :: k1, [], s1, s2, hd1, hb1, _, _, _, he2, heq => by
    rw [List.nil_append] at heq
    rcases he2 with h | ⟨t, ht⟩ | ⟨t, ht⟩
    · rw [h] at heq
      exact absurd heq (List.cons_ne_nil c (k1 ++ s1))
    · rw [ht] at heq
      have : c = '.' := (List.cons.injEq _ _ _ _ ▸ heq).1
      exact absurd (this ▸ List.mem_cons_self c k1) hd1
    · rw [ht] at heq
      have : c = '[' := (List.cons.injEq _ _ _ _ ▸ heq).1
      exact absurd (this ▸ List.mem_cons_self c k1) hb1
  | c :: k1, d :: k2, s1, s2, hd1, hb1, hd2, hb2, he1, he2, heq => by
    rw [List.cons_append, List.cons_append] at heq
    have hcd : c = d := (List.cons.injEq _ _ _ _ ▸ heq).1
    have htail : k1 ++ s1 = k2 ++ s2 := (List.cons.injEq _ _ _ _ ▸ heq).2
    have := clean_ext_inj k1 k2 (fun hm => hd1 (List.mem_cons_of_mem c hm))
      (fun hm => hb1 (List.mem_cons_of_mem c hm))
      (fun hm => hd2 (List.mem_cons_of_mem d hm))
      (fun hm => hb2 (List.mem_cons_of_mem d hm)) he1 he2 htail
    rw [hcd, this]

/-- Digit runs closed by `]` determine each other. -/
theorem digits_bracket_inj : ∀ (a1 a2 : List Char) {s1 s2 : List Char},
    (∀ c ∈ a1, c.isDigit = true) → (∀ c ∈ a2, c.isDigit = true) →
    a1 ++ ']' :: s1 = a2 ++ ']' :: s2 → a1 = a2
  | [], [], s1, s2, _, _, _ => rfl
  | [], d :: a2, s1, s2, _, h2, heq => by
    rw [List.nil_append, List.cons_append] at heq
    have : d = ']' := (List.cons.injEq _ _ _ _ ▸ heq).1.symm
    have hd := h2 d (List.mem_cons_self d a2)
    rw [this] at hd
    simp [Char.isDigit] at hd
  | c :: a1, [], s1, s2, h1, _, heq => by
    rw [List.nil_append, List.cons_append] at heq
    have : c = ']' := (List.cons.injEq _ _ _ _ ▸ heq).1
    have hc := h1 c (List.mem_cons_self c a1)
    rw [this] at hc
    simp [Char.isDigit] at hc
  | c :: a1, d :: a2, s1, s2, h1, h2, heq => by
    rw [List.cons_append, List.cons_append] at heq
    have hcd : c = d := (List.cons.injEq _ _ _ _ ▸ heq).1
    have htail : a1 ++ ']' :: s1 = a2 ++ ']' :: s2 := (List.cons.injEq _ _ _ _ ▸ heq).2
    have := digits_bracket_inj a1 a2 (fun e he => h1 e (List.mem_cons_of_mem c he))
      (fun e he => h2 e (List.mem_cons_of_mem d he)) htail
    rw [hcd, this]

theorem char_ofNat_digit_toNat {d : Nat} (h : d < 10) :
    (Char.ofNat (48 + d)).toNat = 48 + d := by
  interval_cases d <;> decide

theorem char_ofNat_digit_isDigit {d : Nat} (h : d < 10) :
    (Char.ofNat (48 + d)).isDigit = true := by
  interval_cases d <;> decide

theorem natDecimal_digits : ∀ (n : Nat) (c : Char),
    c ∈ DiffEngine.natDecimal n → c.isDigit = true
  | n, c, hc => by
    by_cases h : n < 10
    · rw [natDecimal_digit h] at hc
      rw [List.mem_singleton] at hc
      rw [hc]
      exact char_ofNat_digit_isDigit h
    · rw [DiffEngine.natDecimal, dif_neg h] at hc
      rcases List.mem_append.mp hc with hm | hm
      · exact natDecimal_digits (n / 10) c hm
      · rw [List.mem_singleton] at hm
        rw [hm]
        exact char_ofNat_digit_isDigit (Nat.mod_lt n (by omega))
termination_by n _ _ => n
decreasing_by exact Nat.div_lt_self (by omega) (by omega)

/-- Decimal evaluation, a left inverse of `natDecimal`. -/
def evalDec (cs : List Char) : Nat :=
  cs.foldl (fun a c => a * 10 + (c.toNat - 48)) 0

theorem evalDec_natDecimal : ∀ n : Nat, evalDec (DiffEngine.natDecimal n) = n
  | n => by
    by_cases h : n < 10
    · rw [natDecimal_digit h, evalDec, List.foldl_cons, List.foldl_nil,
        char_ofNat_digit_toNat h]
      omega
    · rw [DiffEngine.natDecimal, dif_neg h, evalDec, List.foldl_append]
      have hrec : evalDec (DiffEngine.natDecimal (n / 10)) = n / 10 :=
        evalDec_natDecimal (n / 10)
      rw [evalDec] at hrec
      rw [hrec, List.foldl_cons, List.foldl_nil,
        char_ofNat_digit_toNat (Nat.mod_lt n (by omega))]
      omega
termination_by n => n
decreasing_by exact Nat.div_lt_self (by omega) (by omega)

theorem natDecimal_inj {i j : Nat} (h : DiffEngine.natDecimal i = DiffEngine.natDecimal j) :
    i = j := by
  have := evalDec_natDecimal i
  rw [h, evalDec_natDecimal j] at this
  exact this.symm

theorem allPaths_append_perm (c1 c2 : DiffEngine.Changes) :
    ((c1.append c2).allPaths).Perm (c1.allPaths ++ c2.allPaths) := by
  refine List.perm_iff_count.mpr ?_
  intro a
  simp only [DiffEngine.Changes.allPaths, DiffEngine.Changes.append, List.map_append,
    List.count_append]
  ring

theorem mem_allPaths_append {q : String} {c1 c2 : DiffEngine.Changes} :
    q ∈ (c1.append c2).allPaths ↔ q ∈ c1.allPaths ∨ q ∈ c2.allPaths := by
  rw [(allPaths_append_perm c1 c2).mem_iff, List.mem_append]

theorem nodup_allPaths_append {c1 c2 : DiffEngine.Changes}
    (h1 : c1.allPaths.Nodup) (h2 : c2.allPaths.Nodup)
    (hd : ∀ q ∈ c1.allPaths, q ∉ c2.allPaths) :
    ((c1.append c2).allPaths).Nodup := by
  rw [(allPaths_append_perm c1 c2).nodup_iff]
  exact h1.append h2 hd

theorem allPaths_nil : DiffEngine.Changes.nil.allPaths = [] := rfl

theorem dedupFirst_nodup : ∀ l : List String, (DiffEngine.dedupFirst l).Nodup
  | [] => by simp [DiffEngine.dedupFirst]
  | k :: ks => by
    rw [DiffEngine.dedupFirst]
    refine List.nodup_cons.mpr ⟨?_, dedupFirst_nodup (ks.filter (fun k' => k' ≠ k))⟩
    intro hmem
    rw [mem_dedupFirst, List.mem_filter] at hmem
    simp at hmem
termination_by l => l.length
decreasing_by
  simp only [List.length_cons]
  exact Nat.lt_succ_of_le (List.length_filter_le _ _)

theorem keysOKFields_lookup {good : String → Bool} :
    ∀ {fs : List (String × Json)} {k : String} {v : Json},
    keysOKFields good fs = true → DiffEngine.lookupJ k fs = some v →
    keysOK good v = true
  | [], k, v, _, hlk => by simp [DiffEngine.lookupJ] at hlk
  | (k', v') :: fs, k, v, hok, hlk => by
    rw [keysOKFields] at hok
    simp only [Bool.and_eq_true] at hok
    rw [DiffEngine.lookupJ] at hlk
    split at hlk
    · cases hlk
      exact hok.1.2
    · exact keysOKFields_lookup hok.2 hlk

theorem keysOKFields_key_good {good : String → Bool} :
    ∀ {fs : List (String × Json)} {k : String},
    keysOKFields good fs = true → k ∈ fs.map Prod.fst → good k = true
  | [], k, _, hm => by simp at hm
  | (k', v') :: fs, k, hok, hm => by
    rw [keysOKFields] at hok
    simp only [Bool.and_eq_true] at hok
    rw [List.map_cons, List.mem_cons] at hm
    rcases hm with hm | hm
    · exact hm ▸ hok.1.1
    · exact keysOKFields_key_good hok.2 hm

theorem keysOKList_mem {good : String → Bool} :
    ∀ {xs : List Json} {x : Json},
    keysOKList good xs = true → x ∈ xs → keysOK good x = true
  | [], x, _, hm => by simp at hm
  | y :: xs, x, hok, hm => by
    rw [keysOKList] at hok
    simp only [Bool.and_eq_true] at hok
    rcases List.mem_cons.mp hm with hm | hm
    · exact hm ▸ hok.1
    · exact keysOKList_mem hok.2 hm

theorem goodKey_clean {k : String} (h : goodKey k = true) : cleanKey k = true := by
  rw [goodKey] at h
  simp only [Bool.and_eq_true] at h
  exact h.1

theorem goodKey_ne_empty {k : String} (h : goodKey k = true) : k ≠ "" := by
  rw [goodKey] at h
  simp only [Bool.and_eq_true] at h
  have h2 := h.2
  simp at h2
  exact h2

theorem childPath_data_root (k : String) :
    (DiffEngine.childPath "" k).data = k.data := by
  rw [DiffEngine.childPath, if_pos rfl]

theorem childPath_data_ne {p : String} (hp : p ≠ "") (k : String) :
    (DiffEngine.childPath p k).data = p.data ++ '.' :: k.data := by
  rw [DiffEngine.childPath, if_neg hp, String.data_append, String.data_append,
    List.append_assoc]
  rfl

theorem idxPath_data (p : String) (i : Nat) :
    (DiffEngine.idxPath p i).data =
      p.data ++ '[' :: (DiffEngine.natDecimal i ++ [']']) := by
  rw [DiffEngine.idxPath, String.data_append, String.data_append, String.data_append,
    List.append_assoc, List.append_assoc]
  rfl

theorem childPath_ne_empty {p k : String} (hk : goodKey k = true) :
    DiffEngine.childPath p k ≠ "" := by
  intro he
  have hd := congrArg String.data he
  by_cases hp : p = ""
  · subst hp
    rw [childPath_data_root] at hd
    exact goodKey_ne_empty hk (String.ext hd)
  · rw [childPath_data_ne hp] at hd
    simp at hd

theorem idxPath_ne_empty (p : String) (i : Nat) : DiffEngine.idxPath p i ≠ "" := by
  intro he
  have hd := congrArg String.data he
  rw [idxPath_data] at hd
  simp at hd

/-- Paths of two sibling object keys cannot collide, nor can anything in
their subtrees. -/
theorem sibling_keys_disjoint {p k1 k2 : String} (hne : k1 ≠ k2)
    (h1 : goodKey k1 = true) (h2 : goodKey k2 = true) {s1 s2 : List Char}
    (he1 : extOk s1) (he2 : extOk s2) :
    (DiffEngine.childPath p k1).data ++ s1 ≠ (DiffEngine.childPath p k2).data ++ s2 := by
  intro heq
  by_cases hp : p = ""
  · subst hp
    rw [childPath_data_root, childPath_data_root] at heq
    exact hne (String.ext (clean_ext_inj k1.data k2.data
      (cleanKey_no_dot (goodKey_clean h1)) (cleanKey_no_bracket (goodKey_clean h1))
      (cleanKey_no_dot (goodKey_clean h2)) (cleanKey_no_bracket (goodKey_clean h2))
      he1 he2 heq))
  · rw [childPath_data_ne hp, childPath_data_ne hp, List.append_assoc,
      List.append_assoc] at heq
    have htail := List.append_cancel_left heq
    rw [List.cons_append, List.cons_append] at htail
    have htail2 := (List.cons.injEq _ _ _ _ ▸ htail).2
    exact hne (String.ext (clean_ext_inj k1.data k2.data
      (cleanKey_no_dot (goodKey_clean h1)) (cleanKey_no_bracket (goodKey_clean h1))
      (cleanKey_no_dot (goodKey_clean h2)) (cleanKey_no_bracket (goodKey_clean h2))
      he1 he2 htail2))

/-- Paths of two distinct array indices cannot collide, nor can anything in
their subtrees. -/
theorem sibling_idx_disjoint {p : String} {i j : Nat} (hne : i ≠ j)
    {s1 s2 : List Char} (he1 : extOk s1) (he2 : extOk s2) :
    (DiffEngine.idxPath p i).data ++ s1 ≠ (DiffEngine.idxPath p j).data ++ s2 := by
  intro heq
  rw [idxPath_data, idxPath_data, List.append_assoc, List.append_assoc] at heq
  have htail := List.append_cancel_left heq
  rw [List.cons_append, List.cons_append] at htail
  have htail2 := (List.cons.injEq _ _ _ _ ▸ htail).2
  rw [List.append_assoc, List.append_assoc, List.singleton_append,
    List.singleton_append] at htail2
  exact hne (natDecimal_inj (digits_bracket_inj _ _
    (fun c hc => natDecimal_digits i c hc) (fun c hc => natDecimal_digits j c hc) htail2))

/-- Every path a subtree comparison emits extends the base path of the
subtree in a parseable way. -/
def pathsBelow (c : DiffEngine.Changes) (base : List Char) : Prop :=
  ∀ q ∈ c.allPaths, ∃ s, extOk s ∧ q.data = base ++ s

theorem pathsBelow_of_single {c : DiffEngine.Changes} {path : String}
    (h : c.allPaths = [path]) : pathsBelow c path.data := by
  intro q hq
  rw [h, List.mem_singleton] at hq
  exact ⟨[], extOk_nil, by rw [hq, List.append_nil]⟩

theorem nodup_of_single {c : DiffEngine.Changes} {path : String}
    (h : c.allPaths = [path]) : c.allPaths.Nodup := by
  rw [h]
  exact List.nodup_singleton path

mutual

theorem nodup_deep : ∀ (o n : Json) (p : String), keysOK goodKey o = true →
    keysOK goodKey n = true → p ≠ "" →
    (DiffEngine.deepCompare o n p).allPaths.Nodup ∧
      pathsBelow (DiffEngine.deepCompare o n p) p.data
  | .null, .null, p, _, _, _ => by
      rw [DiffEngine.deepCompare_null_null]
      exact ⟨nodup_of_single rfl, pathsBelow_of_single rfl⟩
  | .null, .prim b, p, _, _, _ => by
      rw [DiffEngine.deepCompare_null_left (by simp) p]
      exact ⟨nodup_of_single rfl, pathsBelow_of_single rfl⟩
  | .null, .arr ns, p, _, _, _ => by
      rw [DiffEngine.deepCompare_null_left (by simp) p]
      exact ⟨nodup_of_single rfl, pathsBelow_of_single rfl⟩
  | .null, .obj nfs, p, _, _, _ => by
      rw [DiffEngine.deepCompare_null_left (by simp) p]
      exact ⟨nodup_of_single rfl, pathsBelow_of_single rfl⟩
  | .prim a, .null, p, _, _, _ => by
      rw [DiffEngine.deepCompare_null_right (by simp) p]
      exact ⟨nodup_of_single rfl, pathsBelow_of_single rfl⟩
  | .arr os, .null, p, _, _, _ => by
      rw [DiffEngine.deepCompare_null_right (by simp) p]
      exact ⟨nodup_of_single rfl, pathsBelow_of_single rfl⟩
  | .obj ofs, .null, p, _, _, _ => by
      rw [DiffEngine.deepCompare_null_right (by simp) p]
      exact ⟨nodup_of_single rfl, pathsBelow_of_single rfl⟩
  | .prim a, .arr ns, p, _, _, _ => by
      rw [DiffEngine.deepCompare_type_mismatch (by simp) (by simp) (by simp [DiffEngine.getType]) p]
      exact ⟨nodup_of_single rfl, pathsBelow_of_single rfl⟩
  | .prim a, .obj nfs, p, _, _, _ => by
      rw [DiffEngine.deepCompare_type_mismatch (by simp) (by simp) (by simp [DiffEngine.getType]) p]
      exact ⟨nodup_of_single rfl, pathsBelow_of_single rfl⟩
  | .arr os, .prim b, p, _, _, _ => by
      rw [DiffEngine.deepCompare_type_mismatch (by simp) (by simp) (by simp [DiffEngine.getType]) p]
      exact ⟨nodup_of_single rfl, pathsBelow_of_single rfl⟩
  | .arr os, .obj nfs, p, _, _, _ => by
      rw [DiffEngine.deepCompare_type_mismatch (by simp) (by simp) (by simp [DiffEngine.getType]) p]
      exact ⟨nodup_of_single rfl, pathsBelow_of_single rfl⟩
  | .obj ofs, .prim b, p, _, _, _ => by
      rw [DiffEngine.deepCompare_type_mismatch (by simp) (by simp) (by simp [DiffEngine.getType]) p]
      exact ⟨nodup_of_single rfl, pathsBelow_of_single rfl⟩
  | .obj ofs, .arr ns, p, _, _, _ => by
      rw [DiffEngine.deepCompare_type_mismatch (by simp) (by simp) (by simp [DiffEngine.getType]) p]
      exact ⟨nodup_of_single rfl, pathsBelow_of_single rfl⟩
  | .prim a, .prim b, p, _, _, _ => by
      rw [DiffEngine.deepCompare_prim_prim]
      by_cases hab : a = b
      · subst hab
        rw [if_neg (fun h => h rfl)]
        exact ⟨nodup_of_single rfl, pathsBelow_of_single rfl⟩
      · rw [if_pos hab]
        exact ⟨nodup_of_single rfl, pathsBelow_of_single rfl⟩
  | .arr os, .arr ns, p, ho, hn, hp => by
      rw [DiffEngine.deepCompare_arr_arr]
      rw [keysOK] at ho hn
      obtain ⟨hnd, hbelow⟩ := nodup_arrGo os ns p 0 ho hn
      refine ⟨hnd, ?_⟩
      intro q hq
      obtain ⟨j, _, s, hs, hdata⟩ := hbelow q hq
      rw [idxPath_data, List.append_assoc] at hdata
      exact ⟨_, extOk_bracket _, hdata⟩
  | .obj ofs, .obj nfs, p, ho, hn, hp => by
      rw [DiffEngine.deepCompare_obj_obj]
      rw [keysOK] at ho hn
      obtain ⟨hnd, hbelow⟩ := nodup_objGo ofs nfs p
        (DiffEngine.dedupFirst (ofs.map Prod.fst ++ nfs.map Prod.fst)) ho hn
        (dedupFirst_nodup _)
        (fun k hk => by
          rw [mem_dedupFirst, List.mem_append] at hk
          rcases hk with hk | hk
          · exact keysOKFields_key_good ho hk
          · exact keysOKFields_key_good hn hk)
      refine ⟨hnd, ?_⟩
      intro q hq
      obtain ⟨k, _, s, hs, hdata⟩ := hbelow q hq
      rw [childPath_data_ne hp, List.append_assoc, List.cons_append] at hdata
      exact ⟨_, extOk_dot _, hdata⟩
termination_by o n p => (sizeOf o + sizeOf n, 0)

theorem nodup_objStep : ∀ (oldFs newFs : List (String × Json)) (p k : String),
    keysOKFields goodKey oldFs = true → keysOKFields goodKey newFs = true →
    goodKey k = true →
    (DiffEngine.objStep oldFs newFs p k).allPaths.Nodup ∧
      pathsBelow (DiffEngine.objStep oldFs newFs p k) (DiffEngine.childPath p k).data
  | oldFs, newFs, p, k, ho, hn, hk => by
      match hO : DiffEngine.lookupJ k oldFs, hN : DiffEngine.lookupJ k newFs with
      | some ov, some nv =>
        rw [DiffEngine.objStep_some_some hO hN]
        exact nodup_deep ov nv (DiffEngine.childPath p k)
          (keysOKFields_lookup ho hO) (keysOKFields_lookup hn hN)
          (childPath_ne_empty hk)
      | some ov, none =>
        rw [DiffEngine.objStep_some_none hO hN]
        exact ⟨nodup_of_single rfl, pathsBelow_of_single rfl⟩
      | none, some nv =>
        rw [DiffEngine.objStep_none_some hO hN]
        exact ⟨nodup_of_single rfl, pathsBelow_of_single rfl⟩
      | none, none =>
        rw [DiffEngine.objStep_none_none hO hN]
        refine ⟨by simp [allPaths_nil], ?_⟩
        intro q hq
        rw [allPaths_nil] at hq
        exact absurd hq (List.not_mem_nil q)
termination_by oldFs newFs p k => (sizeOf oldFs + sizeOf newFs, 1)
decreasing_by
  apply Prod.Lex.left
  have h1 := DiffEngine.lookupJ_sizeOf hO
  have h2 := DiffEngine.lookupJ_sizeOf hN
  omega

theorem nodup_objGo : ∀ (oldFs newFs : List (String × Json)) (p : String)
    (ks : List String),
    keysOKFields goodKey oldFs = true → keysOKFields goodKey newFs = true →
    ks.Nodup → (∀ k ∈ ks, goodKey k = true) →
    (DiffEngine.compareObjectsGo oldFs newFs p ks).allPaths.Nodup ∧
      (∀ q ∈ (DiffEngine.compareObjectsGo oldFs newFs p ks).allPaths,
        ∃ k, k ∈ ks ∧ ∃ s, extOk s ∧ q.data = (DiffEngine.childPath p k).data ++ s)
  | oldFs, newFs, p, [], _, _, _, _ => by
      rw [DiffEngine.compareObjectsGo]
      refine ⟨by simp [allPaths_nil], ?_⟩
      intro q hq
      rw [allPaths_nil] at hq
      exact absurd hq (List.not_mem_nil q)
  | oldFs, newFs, p, k :: ks, ho, hn, hndks, hgood => by
      rw [DiffEngine.compareObjectsGo]
      have hk := hgood k (List.mem_cons_self k ks)
      obtain ⟨hnd1, hbelow1⟩ := nodup_objStep oldFs newFs p k ho hn hk
      obtain ⟨hnd2, hbelow2⟩ := nodup_objGo oldFs newFs p ks ho hn
        (List.nodup_cons.mp hndks).2
        (fun k' hk' => hgood k' (List.mem_cons_of_mem _ hk'))
      have hknotin := (List.nodup_cons.mp hndks).1
      refine ⟨nodup_allPaths_append hnd1 hnd2 ?_, ?_⟩
      · intro q hq1 hq2
        obtain ⟨s1, hs1, hd1⟩ := hbelow1 q hq1
        obtain ⟨k', hk', s2, hs2, hd2⟩ := hbelow2 q hq2
        have hne : k ≠ k' := fun he => hknotin (he ▸ hk')
        exact sibling_keys_disjoint hne hk (hgood k' (List.mem_cons_of_mem _ hk'))
          hs1 hs2 (hd1 ▸ hd2)
      · intro q hq
        rcases mem_allPaths_append.mp hq with hq | hq
        · obtain ⟨s, hs, hd⟩ := hbelow1 q hq
          exact ⟨k, List.mem_cons_self k ks, s, hs, hd⟩
        · obtain ⟨k', hk', s, hs, hd⟩ := hbelow2 q hq
          exact ⟨k', List.mem_cons_of_mem _ hk', s, hs, hd⟩
termination_by oldFs newFs p ks => (sizeOf oldFs + sizeOf newFs, 2 + ks.length)
decreasing_by
  · apply Prod.Lex.right
    omega
  · apply Prod.Lex.right
    simp only [List.length_cons]
    omega

theorem nodup_arrGo : ∀ (os ns : List Json) (p : String) (i : Nat),
    keysOKList goodKey os = true → keysOKList goodKey ns = true →
    (DiffEngine.compareArraysGo os ns p i).allPaths.Nodup ∧
      (∀ q ∈ (DiffEngine.compareArraysGo os ns p i).allPaths,
        ∃ j, i ≤ j ∧ ∃ s, extOk s ∧ q.data = (DiffEngine.idxPath p j).data ++ s)
  | [], [], p, i, _, _ => by
      rw [DiffEngine.compareArraysGo]
      refine ⟨by simp [allPaths_nil], ?_⟩
      intro q hq
      rw [allPaths_nil] at hq
      exact absurd hq (List.not_mem_nil q)
  | o :: os, n :: ns, p, i, ho, hn => by
      rw [DiffEngine.compareArraysGo]
      rw [keysOKList] at ho hn
      simp only [Bool.and_eq_true] at ho hn
      obtain ⟨hnd1, hbelow1⟩ := nodup_deep o n (DiffEngine.idxPath p i) ho.1 hn.1
        (idxPath_ne_empty p i)
      obtain ⟨hnd2, hbelow2⟩ := nodup_arrGo os ns p (i + 1) ho.2 hn.2
      refine ⟨nodup_allPaths_append hnd1 hnd2 ?_, ?_⟩
      · intro q hq1 hq2
        obtain ⟨s1, hs1, hd1⟩ := hbelow1 q hq1
        obtain ⟨j, hj, s2, hs2, hd2⟩ := hbelow2 q hq2
        exact sibling_idx_disjoint (by omega : i ≠ j) hs1 hs2 (hd1 ▸ hd2)
      · intro q hq
        rcases mem_allPaths_append.mp hq with hq | hq
        · obtain ⟨s, hs, hd⟩ := hbelow1 q hq
          exact ⟨i, le_refl i, s, hs, hd⟩
        · obtain ⟨j, hj, s, hs, hd⟩ := hbelow2 q hq
          exact ⟨j, by omega, s, hs, hd⟩
  | o :: os, [], p, i, ho, hn => by
      rw [DiffEngine.compareArraysGo]
      rw [keysOKList] at ho
      simp only [Bool.and_eq_true] at ho
      obtain ⟨hnd2, hbelow2⟩ := nodup_arrGo os [] p (i + 1) ho.2 hn
      have hsingle : (DiffEngine.Changes.allPaths
          ⟨[], [⟨DiffEngine.idxPath p i, o, DiffEngine.getType o⟩], [], []⟩) =
          [DiffEngine.idxPath p i] := rfl
      refine ⟨nodup_allPaths_append (nodup_of_single hsingle) hnd2 ?_, ?_⟩
      · intro q hq1 hq2
        obtain ⟨s1, hs1, hd1⟩ := pathsBelow_of_single hsingle q hq1
        obtain ⟨j, hj, s2, hs2, hd2⟩ := hbelow2 q hq2
        exact sibling_idx_disjoint (by omega : i ≠ j) hs1 hs2 (hd1 ▸ hd2)
      · intro q hq
        rcases mem_allPaths_append.mp hq with hq | hq
        · obtain ⟨s, hs, hd⟩ := pathsBelow_of_single hsingle q hq
          exact ⟨i, le_refl i, s, hs, hd⟩
        · obtain ⟨j, hj, s, hs, hd⟩ := hbelow2 q hq
          exact ⟨j, by omega, s, hs, hd⟩
  | [], n :: ns, p, i, ho, hn => by
      rw [DiffEngine.compareArraysGo]
      rw [keysOKList] at hn
      simp only [Bool.and_eq_true] at hn
      obtain ⟨hnd2, hbelow2⟩ := nodup_arrGo [] ns p (i + 1) ho hn.2
      have hsingle : (DiffEngine.Changes.allPaths
          ⟨[⟨DiffEngine.idxPath p i, n, DiffEngine.getType n⟩], [], [], []⟩) =
          [DiffEngine.idxPath p i] := rfl
      refine ⟨nodup_allPaths_append (nodup_of_single hsingle) hnd2 ?_, ?_⟩
      · intro q hq1 hq2
        obtain ⟨s1, hs1, hd1⟩ := pathsBelow_of_single hsingle q hq1
        obtain ⟨j, hj, s2, hs2, hd2⟩ := hbelow2 q hq2
        exact sibling_idx_disjoint (by omega : i ≠ j) hs1 hs2 (hd1 ▸ hd2)
      · intro q hq
        rcases mem_allPaths_append.mp hq with hq | hq
        · obtain ⟨s, hs, hd⟩ := pathsBelow_of_single hsingle q hq
          exact ⟨i, le_refl i, s, hs, hd⟩
        · obtain ⟨j, hj, s, hs, hd⟩ := hbelow2 q hq
          exact ⟨j, by omega, s, hs, hd⟩
termination_by os ns p i => (sizeOf os + sizeOf ns, 0)

end

/-- C10 as amended: when every object key of both inputs is nonempty and
contains none of `.`, `[`, `]`, every path string occurs in at most one
change record across the four sequences of a comparison result. -/
theorem path_disjointness : ∀ (X Y : Json), keysOK goodKey X = true →
    keysOK goodKey Y = true → (DiffEngine.compare X Y).allPaths.Nodup
  | .null, .null, _, _ => by
      rw [DiffEngine.compare_eq_deepCompare, DiffEngine.deepCompare_null_null]
      exact nodup_of_single rfl
  | .null, .prim b, _, _ => by
      rw [DiffEngine.compare_eq_deepCompare, DiffEngine.deepCompare_null_left (by simp) _]
      exact nodup_of_single rfl
  | .null, .arr ns, _, _ => by
      rw [DiffEngine.compare_eq_deepCompare, DiffEngine.deepCompare_null_left (by simp) _]
      exact nodup_of_single rfl
  | .null, .obj nfs, _, _ => by
      rw [DiffEngine.compare_eq_deepCompare, DiffEngine.deepCompare_null_left (by simp) _]
      exact nodup_of_single rfl
  | .prim a, .null, _, _ => by
      rw [DiffEngine.compare_eq_deepCompare, DiffEngine.deepCompare_null_right (by simp) _]
      exact nodup_of_single rfl
  | .arr os, .null, _, _ => by
      rw [DiffEngine.compare_eq_deepCompare, DiffEngine.deepCompare_null_right (by simp) _]
      exact nodup_of_single rfl
  | .obj ofs, .null, _, _ => by
      rw [DiffEngine.compare_eq_deepCompare, DiffEngine.deepCompare_null_right (by simp) _]
      exact nodup_of_single rfl
  | .prim a, .arr ns, _, _ => by
      rw [DiffEngine.compare_eq_deepCompare,
        DiffEngine.deepCompare_type_mismatch (by simp) (by simp) (by simp [DiffEngine.getType]) _]
      exact nodup_of_single rfl
  | .prim a, .obj nfs, _, _ => by
      rw [DiffEngine.compare_eq_deepCompare,
        DiffEngine.deepCompare_type_mismatch (by simp) (by simp) (by simp [DiffEngine.getType]) _]
      exact nodup_of_single rfl
  | .arr os, .prim b, _, _ => by
      rw [DiffEngine.compare_eq_deepCompare,
        DiffEngine.deepCompare_type_mismatch (by simp) (by simp) (by simp [DiffEngine.getType]) _]
      exact nodup_of_single rfl
  | .arr os, .obj nfs, _, _ => by
      rw [DiffEngine.compare_eq_deepCompare,
        DiffEngine.deepCompare_type_mismatch (by simp) (by simp) (by simp [DiffEngine.getType]) _]
      exact nodup_of_single rfl
  | .obj ofs, .prim b, _, _ => by
      rw [DiffEngine.compare_eq_deepCompare,
        DiffEngine.deepCompare_type_mismatch (by simp) (by simp) (by simp [DiffEngine.getType]) _]
      exact nodup_of_single rfl
  | .obj ofs, .arr ns, _, _ => by
      rw [DiffEngine.compare_eq_deepCompare,
        DiffEngine.deepCompare_type_mismatch (by simp) (by simp) (by simp [DiffEngine.getType]) _]
      exact nodup_of_single rfl
  | .prim a, .prim b, _, _ => by
      rw [DiffEngine.compare_eq_deepCompare, DiffEngine.deepCompare_prim_prim]
      by_cases hab : a = b
      · subst hab
        rw [if_neg (fun h => h rfl)]
        exact nodup_of_single rfl
      · rw [if_pos hab]
        exact nodup_of_single rfl
  | .arr os, .arr ns, hX, hY => by
      rw [DiffEngine.compare_eq_deepCompare, DiffEngine.deepCompare_arr_arr]
      rw [keysOK] at hX hY
      exact (nodup_arrGo os ns "" 0 hX hY).1
  | .obj ofs, .obj nfs, hX, hY => by
      rw [DiffEngine.compare_eq_deepCompare, DiffEngine.deepCompare_obj_obj]
      rw [keysOK] at hX hY
      exact (nodup_objGo ofs nfs ""
        (DiffEngine.dedupFirst (ofs.map Prod.fst ++ nfs.map Prod.fst)) hX hY
        (dedupFirst_nodup _)
        (fun k hk => by
          rw [mem_dedupFirst, List.mem_append] at hk
          rcases hk with hk | hk
          · exact keysOKFields_key_good hX hk
          · exact keysOKFields_key_good hY hk)).1

/-- Witness for the amended C10 at `X = {a: {b: 1}}, Y = {a: 2, c: null}`:
all keys are nonempty and clean, and every emitted path is distinct. -/
theorem path_disjointness_witness :
    keysOK goodKey (.obj [("a", .obj [("b", .prim (.int 1))])]) = true ∧
    keysOK goodKey (.obj [("a", .prim (.int 2)), ("c", .null)]) = true ∧
    (DiffEngine.compare (.obj [("a", .obj [("b", .prim (.int 1))])])
      (.obj [("a", .prim (.int 2)), ("c", .null)])).allPaths.Nodup := by
  refine ⟨?_, ?_, ?_⟩
  · simp [keysOK, keysOKFields, keysOKList, goodKey, cleanKey]
  · simp [keysOK, keysOKFields, keysOKList, goodKey, cleanKey]
  · exact path_disjointness _ _
      (by simp [keysOK, keysOKFields, keysOKList, goodKey, cleanKey])
      (by simp [keysOK, keysOKFields, keysOKList, goodKey, cleanKey])

theorem compareArraysGo_nil_right_shape : ∀ (os : List Json) (p : String) (i : Nat),
    (DiffEngine.compareArraysGo os [] p i).added = [] ∧
    (DiffEngine.compareArraysGo os [] p i).modified = [] ∧
    (DiffEngine.compareArraysGo os [] p i).unchanged = []
  | [], p, i => by
      rw [DiffEngine.compareArraysGo]
      exact ⟨rfl, rfl, rfl⟩
  | o :: os, p, i => by
      rw [DiffEngine.compareArraysGo]
      obtain ⟨h1, h2, h3⟩ := compareArraysGo_nil_right_shape os p (i + 1)
      simp [DiffEngine.Changes.append, h1, h2, h3]

theorem compareArraysGo_nil_left_shape : ∀ (ns : List Json) (p : String) (i : Nat),
    (DiffEngine.compareArraysGo [] ns p i).removed = [] ∧
    (DiffEngine.compareArraysGo [] ns p i).modified = [] ∧
    (DiffEngine.compareArraysGo [] ns p i).unchanged = []
  | [], p, i => by
      rw [DiffEngine.compareArraysGo]
      exact ⟨rfl, rfl, rfl⟩
  | n :: ns, p, i => by
      rw [DiffEngine.compareArraysGo]
      obtain ⟨h1, h2, h3⟩ := compareArraysGo_nil_left_shape ns p (i + 1)
      simp [DiffEngine.Changes.append, h1, h2, h3]

/-- C1 as amended: null/absent conflation holds only between the two *present*
values handed to `deepCompare`: two explicit nulls give one Unchanged(path,
null) record; an explicit null against a non-null value gives Added/Removed
carrying the present value. A key or array index absent on one side is always
reported Added/Removed with the other side's value — an absent object key via
the key loop, a missing array element via the surplus loop branches, which
emit only removed (old side longer) or only added (new side longer) records —
even when the present value is itself an explicit `null`, in which case the
claim's promised Unchanged(path, null) record is not produced. -/
theorem null_handling_amended :
    (∀ p : String, DiffEngine.deepCompare .null .null p =
      ⟨[], [], [], [⟨p, Json.null, "null"⟩]⟩) ∧
    (∀ (p : String) (v : Json), v ≠ Json.null →
      DiffEngine.deepCompare .null v p = ⟨[⟨p, v, DiffEngine.getType v⟩], [], [], []⟩ ∧
      DiffEngine.deepCompare v .null p = ⟨[], [⟨p, v, DiffEngine.getType v⟩], [], []⟩) ∧
    (∀ (oldFs newFs : List (String × Json)) (p k : String) (ov : Json),
      DiffEngine.lookupJ k oldFs = some ov → DiffEngine.lookupJ k newFs = none →
      DiffEngine.objStep oldFs newFs p k =
        ⟨[], [⟨DiffEngine.childPath p k, ov, DiffEngine.getType ov⟩], [], []⟩) ∧
    (∀ (oldFs newFs : List (String × Json)) (p k : String) (nv : Json),
      DiffEngine.lookupJ k oldFs = none → DiffEngine.lookupJ k newFs = some nv →
      DiffEngine.objStep oldFs newFs p k =
        ⟨[⟨DiffEngine.childPath p k, nv, DiffEngine.getType nv⟩], [], [], []⟩) ∧
    (∀ (os ns : List Json) (p : String) (i : Nat) (o : Json),
      os[i]? = some o → ns[i]? = none →
      removedPair (DiffEngine.compareArraysGo os ns p 0) (DiffEngine.idxPath p i) o) ∧
    (∀ (os ns : List Json) (p : String) (i : Nat) (n : Json),
      os[i]? = none → ns[i]? = some n →
      addedPair (DiffEngine.compareArraysGo os ns p 0) (DiffEngine.idxPath p i) n) ∧
    (∀ (os : List Json) (p : String) (i : Nat),
      (DiffEngine.compareArraysGo os [] p i).added = [] ∧
      (DiffEngine.compareArraysGo os [] p i).modified = [] ∧
      (DiffEngine.compareArraysGo os [] p i).unchanged = []) ∧
    (∀ (ns : List Json) (p : String) (i : Nat),
      (DiffEngine.compareArraysGo [] ns p i).removed = [] ∧
      (DiffEngine.compareArraysGo [] ns p i).modified = [] ∧
      (DiffEngine.compareArraysGo [] ns p i).unchanged = []) := by
  refine ⟨DiffEngine.deepCompare_null_null, ?_, ?_, ?_, ?_, ?_,
    compareArraysGo_nil_right_shape, compareArraysGo_nil_left_shape⟩
  · intro p v hv
    exact ⟨DiffEngine.deepCompare_null_left hv p, DiffEngine.deepCompare_null_right hv p⟩
  · intro oldFs newFs p k ov h1 h2
    exact DiffEngine.objStep_some_none h1 h2 p
  · intro oldFs newFs p k nv h1 h2
    exact DiffEngine.objStep_none_some h1 h2 p
  · intro os ns p i o hO hN
    rw [compareArraysGo_spec, removedPair_join]
    refine ⟨arrayStepFrom os ns p 0 i, List.mem_map.mpr ⟨i, List.mem_range.mpr ?_, rfl⟩, ?_⟩
    · have hlt : i < os.length := (List.getElem?_eq_some.mp hO).1
      exact lt_of_lt_of_le hlt (le_max_left _ _)
    · rw [arrayStepFrom, hO, hN]
      refine ⟨⟨DiffEngine.idxPath p (0 + i), o, DiffEngine.getType o⟩, ?_, ?_, rfl⟩
      · exact List.mem_singleton_self _
      · rw [Nat.zero_add]
  · intro os ns p i n hO hN
    rw [compareArraysGo_spec, addedPair_join]
    refine ⟨arrayStepFrom os ns p 0 i, List.mem_map.mpr ⟨i, List.mem_range.mpr ?_, rfl⟩, ?_⟩
    · have hlt : i < ns.length := (List.getElem?_eq_some.mp hN).1
      exact lt_of_lt_of_le hlt (le_max_right _ _)
    · rw [arrayStepFrom, hO, hN]
      refine ⟨⟨DiffEngine.idxPath p (0 + i), n, DiffEngine.getType n⟩, ?_, ?_, rfl⟩
      · exact List.mem_singleton_self _
      · rw [Nat.zero_add]

/-- Witness for the amended C1: an absent object key whose counterpart value
is an explicit `null` is reported Removed (respectively Added) with value
null; a null against a present primitive is Removed with that value; a
surplus array element that is an explicit `null` is likewise reported
Removed (respectively Added) at its index, and the surplus branches emit no
unchanged record. -/
theorem null_handling_amended_witness :
    DiffEngine.objStep [("a", Json.null)] [] "" "a" =
      ⟨[], [⟨"a", Json.null, "null"⟩], [], []⟩ ∧
    DiffEngine.objStep [] [("a", Json.null)] "" "a" =
      ⟨[⟨"a", Json.null, "null"⟩], [], [], []⟩ ∧
    DiffEngine.deepCompare (.prim (.int 7)) .null "p" =
      ⟨[], [⟨"p", .prim (.int 7), "primitive"⟩], [], []⟩ ∧
    removedPair (DiffEngine.compareArraysGo [Json.null] [] "x" 0)
      (DiffEngine.idxPath "x" 0) Json.null ∧
    addedPair (DiffEngine.compareArraysGo [] [Json.null] "x" 0)
      (DiffEngine.idxPath "x" 0) Json.null ∧
    (DiffEngine.compareArraysGo [Json.null] [] "x" 0).unchanged = [] := by
  refine ⟨?_, ?_, ?_, ?_, ?_, ?_⟩
  · have h := null_handling_amended.2.2.1 [("a", Json.null)] [] "" "a" Json.null
      (by simp [DiffEngine.lookupJ]) rfl
    simpa [DiffEngine.childPath, DiffEngine.getType] using h
  · have h := null_handling_amended.2.2.2.1 [] [("a", Json.null)] "" "a" Json.null
      rfl (by simp [DiffEngine.lookupJ])
    simpa [DiffEngine.childPath, DiffEngine.getType] using h
  · exact (null_handling_amended.2.1 "p" (.prim (.int 7)) (by simp)).2
  · exact null_handling_amended.2.2.2.2.1 [Json.null] [] "x" 0 Json.null rfl rfl
  · exact null_handling_amended.2.2.2.2.2.1 [] [Json.null] "x" 0 Json.null rfl rfl
  · exact (null_handling_amended.2.2.2.2.2.2.1 [Json.null] "x" 0).2.2
